/-
Verification of the quickrib RIB-reconstruction engine.

This file gives a shallow embedding of the core of the repository:

  * rib_table.py  : the RIB store (build / update / compare), the path
    sanitizer used in _build_rib_from_url and _update_rib_from_url, and
    the notification stream sent to observers;
  * observers/graph.py : ASGraphObserver and ASMultiGraphObserver;
  * observers/path.py  : PathObserver;
  * observers/update_count.py : UpdateCountObserver.

Python dicts are modelled as association lists with Python-dict
semantics: lookup / set / delete act on the first matching key, a set of
a fresh key appends at the end (insertion order), so list equality of two
model states corresponds to the observable equality of the Python dicts.
Timestamps are rationals (the MRT stream carries fractional UNIX
seconds).  Every definition is executable, and the theorems below settle
the frozen claims about the program.
-/
import Mathlib

set_option synthInstance.maxSize 2048

namespace Quickrib

/-! ## Python dict model -/

section PyDict

variable {α : Type} {β : Type} [DecidableEq α]

/-- Lookup in a Python dict: the value at the first matching key. -/
def mget (k : α) : List (α × β) → Option β
  | [] => none
  | (a, b) :: t => if a = k then some b else mget k t

/-- Assignment `d[k] = v` in a Python dict: replace the value at the first
matching key in place, or append the new binding at the end. -/
def mset (k : α) (v : β) : List (α × β) → List (α × β)
  | [] => [(k, v)]
  | (a, b) :: t => if a = k then (k, v) :: t else (a, b) :: mset k v t

/-- Deletion `d.pop(k)`: remove the first binding of `k`. -/
def merase (k : α) : List (α × β) → List (α × β)
  | [] => []
  | (a, b) :: t => if a = k then t else (a, b) :: merase k t

@[simp] theorem mget_nil (k : α) : mget k ([] : List (α × β)) = none := rfl

theorem mget_mset_self (k : α) (v : β) (m : List (α × β)) :
    mget k (mset k v m) = some v := by
  induction m with
  | nil => simp [mget, mset]
  | cons h t ih =>
    obtain ⟨a, b⟩ := h
    by_cases hak : a = k <;> simp [mget, mset, hak, ih]

theorem mget_mset_ne (k k2 : α) (v : β) (m : List (α × β)) (h : k ≠ k2) :
    mget k2 (mset k v m) = mget k2 m := by
  induction m with
  | nil => simp [mget, mset, h]
  | cons hd t ih =>
    obtain ⟨a, b⟩ := hd
    by_cases hak : a = k
    · subst hak
      simp [mget, mset, h]
    · simp [mget, mset, hak, ih]

theorem mem_mset (x : α × β) (k : α) (v : β) (m : List (α × β)) :
    x ∈ mset k v m → x = (k, v) ∨ x ∈ m := by
  induction m with
  | nil => simp [mset]
  | cons hd t ih =>
    obtain ⟨a, b⟩ := hd
    show x ∈ (if a = k then (k, v) :: t else (a, b) :: mset k v t) → _
    by_cases hak : a = k
    · rw [if_pos hak]
      intro hx
      rcases List.mem_cons.mp hx with h1 | h1
      · exact Or.inl h1
      · exact Or.inr (List.mem_cons.mpr (Or.inr h1))
    · rw [if_neg hak]
      intro hx
      rcases List.mem_cons.mp hx with h1 | h1
      · exact Or.inr (List.mem_cons.mpr (Or.inl h1))
      · rcases ih h1 with h2 | h2
        · exact Or.inl h2
        · exact Or.inr (List.mem_cons.mpr (Or.inr h2))

theorem merase_sublist (k : α) (m : List (α × β)) : (merase k m).Sublist m := by
  induction m with
  | nil => simp [merase]
  | cons hd t ih =>
    obtain ⟨a, b⟩ := hd
    by_cases hak : a = k
    · simp only [merase, if_pos hak]
      exact List.sublist_cons_self _ _
    · simp only [merase, if_neg hak]
      exact ih.cons₂ (a, b)

theorem mem_merase (x : α × β) (k : α) (m : List (α × β)) :
    x ∈ merase k m → x ∈ m :=
  fun h => (merase_sublist k m).mem h

theorem mget_mem (k : α) (v : β) (m : List (α × β)) :
    mget k m = some v → (k, v) ∈ m := by
  induction m with
  | nil => simp [mget]
  | cons hd t ih =>
    obtain ⟨a, b⟩ := hd
    intro hv
    replace hv : (if a = k then some b else mget k t) = some v := hv
    by_cases hak : a = k
    · rw [if_pos hak] at hv
      have hb : b = v := Option.some.inj hv
      subst hb
      subst hak
      exact List.mem_cons_self _ _
    · rw [if_neg hak] at hv
      exact List.mem_cons_of_mem _ (ih hv)

theorem mset_eq_of_mget (k : α) (v : β) (m : List (α × β))
    (h : mget k m = some v) : mset k v m = m := by
  induction m with
  | nil => simp [mget] at h
  | cons hd t ih =>
    obtain ⟨a, b⟩ := hd
    replace h : (if a = k then some b else mget k t) = some v := h
    show (if a = k then (k, v) :: t else (a, b) :: mset k v t) = (a, b) :: t
    by_cases hak : a = k
    · rw [if_pos hak] at h
      have hb : b = v := Option.some.inj h
      rw [if_pos hak, ← hb, hak]
    · rw [if_neg hak] at h
      rw [if_neg hak, ih h]

theorem mget_eq_none_iff (k : α) (m : List (α × β)) :
    mget k m = none ↔ k ∉ m.map Prod.fst := by
  induction m with
  | nil => simp
  | cons hd t ih =>
    obtain ⟨a, b⟩ := hd
    show (if a = k then some b else mget k t) = none ↔ _
    by_cases hak : a = k
    · subst hak
      simp
    · simp [hak, ih, Ne.symm hak]

theorem merase_mset_absent (k : α) (v : β) (m : List (α × β))
    (h : mget k m = none) : merase k (mset k v m) = m := by
  induction m with
  | nil => simp [mset, merase]
  | cons hd t ih =>
    obtain ⟨a, b⟩ := hd
    replace h : (if a = k then some b else mget k t) = none := h
    by_cases hak : a = k
    · rw [if_pos hak] at h
      exact absurd h (by simp)
    · rw [if_neg hak] at h
      show merase k (if a = k then (k, v) :: t else (a, b) :: mset k v t) = _
      rw [if_neg hak]
      show (if a = k then mset k v t else (a, b) :: merase k (mset k v t)) = _
      rw [if_neg hak, ih h]

theorem mset_mset_self (k : α) (v v2 : β) (m : List (α × β)) :
    mset k v (mset k v2 m) = mset k v m := by
  induction m with
  | nil => simp [mset]
  | cons hd t ih =>
    obtain ⟨a, b⟩ := hd
    show mset k v (if a = k then (k, v2) :: t else (a, b) :: mset k v2 t) = _
    by_cases hak : a = k
    · rw [if_pos hak]
      show (if k = k then (k, v) :: t else _) = _
      rw [if_pos rfl]
      show _ = (if a = k then (k, v) :: t else (a, b) :: mset k v t)
      rw [if_pos hak]
    · rw [if_neg hak]
      show (if a = k then (k, v) :: mset k v2 t else (a, b) :: mset k v (mset k v2 t)) = _
      rw [if_neg hak, ih]
      show _ = (if a = k then (k, v) :: t else (a, b) :: mset k v t)
      rw [if_neg hak]

theorem map_fst_mset_present (k : α) (v : β) (m : List (α × β))
    (h : mget k m ≠ none) : (mset k v m).map Prod.fst = m.map Prod.fst := by
  induction m with
  | nil => simp [mget] at h
  | cons hd t ih =>
    obtain ⟨a, b⟩ := hd
    replace h : (if a = k then some b else mget k t) ≠ none := h
    show ((if a = k then (k, v) :: t else (a, b) :: mset k v t)).map Prod.fst = _
    by_cases hak : a = k
    · rw [if_pos hak, hak]
      simp
    · rw [if_neg hak] at h
      rw [if_neg hak]
      simp [ih h]

theorem map_fst_mset_absent (k : α) (v : β) (m : List (α × β))
    (h : mget k m = none) : (mset k v m).map Prod.fst = m.map Prod.fst ++ [k] := by
  induction m with
  | nil => simp [mset]
  | cons hd t ih =>
    obtain ⟨a, b⟩ := hd
    replace h : (if a = k then some b else mget k t) = none := h
    show ((if a = k then (k, v) :: t else (a, b) :: mset k v t)).map Prod.fst = _
    by_cases hak : a = k
    · rw [if_pos hak] at h
      exact absurd h (by simp)
    · rw [if_neg hak] at h
      rw [if_neg hak]
      simp [ih h]

/-- Keys of the dict are pairwise distinct (true of every Python dict). -/
def keysND (m : List (α × β)) : Prop := (m.map Prod.fst).Nodup

instance (m : List (α × β)) : Decidable (keysND m) := by
  unfold keysND
  infer_instance

theorem keysND_mset (k : α) (v : β) (m : List (α × β)) (h : keysND m) :
    keysND (mset k v m) := by
  unfold keysND at *
  rcases hk : mget k m with _ | w
  · rw [map_fst_mset_absent k v m hk]
    have hnotin := (mget_eq_none_iff k m).mp hk
    refine List.Nodup.append h (List.nodup_singleton k) ?_
    intro x hx hxk
    simp only [List.mem_singleton] at hxk
    subst hxk
    exact hnotin hx
  · rw [map_fst_mset_present k v m (by simp [hk])]
    exact h

theorem keysND_merase (k : α) (m : List (α × β)) (h : keysND m) :
    keysND (merase k m) :=
  List.Nodup.sublist ((merase_sublist k m).map Prod.fst) h

theorem mget_merase_self (k : α) (m : List (α × β)) (h : keysND m) :
    mget k (merase k m) = none := by
  induction m with
  | nil => simp [merase]
  | cons hd t ih =>
    obtain ⟨a, b⟩ := hd
    unfold keysND at h
    simp only [List.map_cons, List.nodup_cons] at h
    by_cases hak : a = k
    · subst hak
      simp only [merase, if_pos rfl]
      exact (mget_eq_none_iff a t).mpr h.1
    · simp [merase, mget, hak, ih h.2]

theorem mget_merase_ne (k k2 : α) (m : List (α × β)) (h : k ≠ k2) :
    mget k2 (merase k m) = mget k2 m := by
  induction m with
  | nil => simp [merase]
  | cons hd t ih =>
    obtain ⟨a, b⟩ := hd
    show mget k2 (if a = k then t else (a, b) :: merase k t) = if a = k2 then some b else mget k2 t
    by_cases hak : a = k
    · rw [if_pos hak, if_neg (by rw [hak]; exact h)]
    · rw [if_neg hak]
      show (if a = k2 then some b else mget k2 (merase k t)) = _
      by_cases hak2 : a = k2
      · rw [if_pos hak2, if_pos hak2]
      · rw [if_neg hak2, if_neg hak2, ih]

end PyDict

/-! ## Python `int()` on strings, and the AS-path sanitizer

`_build_rib_from_url` and `_update_rib_from_url` both parse an AS-path field
with `[int(k) for k, g in groupby(as_path.split(" "))]`: the field is split on
single spaces, `groupby` yields one key per maximal run of equal string
tokens, and each key is fed to Python `int`, which strips surrounding
whitespace, accepts an optional sign, and accepts single underscores between
digits.  A `ValueError` anywhere makes the whole path malformed. -/

/-- Digit run of a Python int literal after the optional sign: one digit, then
digits with single underscores allowed between digits. -/
def pyDigitsCore : Nat → List Char → Option Nat
  | acc, [] => some acc
  | acc, c :: t =>
    if c.isDigit then pyDigitsCore (10 * acc + (c.toNat - 48)) t
    else if c = '_' then
      match t with
      | [] => none
      | d :: t2 =>
        if d.isDigit then pyDigitsCore (10 * acc + (d.toNat - 48)) t2 else none
    else none

/-- Nonempty all-digit (with inner underscores) parse. -/
def pyDigits : List Char → Option Nat
  | [] => none
  | c :: t => if c.isDigit then pyDigitsCore (c.toNat - 48) t else none

/-- Python `int(s)` on a string: strip surrounding whitespace, optional sign,
then a digit run.  Returns `none` where Python raises `ValueError`. -/
def pyInt (s : String) : Option Int :=
  let cs := ((s.toList.dropWhile Char.isWhitespace).reverse.dropWhile Char.isWhitespace).reverse
  match cs with
  | '+' :: rest => (pyDigits rest).map (fun n => (n : Int))
  | '-' :: rest => (pyDigits rest).map (fun n => -(n : Int))
  | rest => (pyDigits rest).map (fun n => (n : Int))

/-- Python `s.split(" ")` on the character list: cut at every single space,
keeping empty pieces (so `"a  b"` gives `["a", "", "b"]` and `""` gives
`[""]`). -/
def splitSp : List Char → List (List Char)
  | [] => [[]]
  | c :: t =>
    match splitSp t with
    | [] => [[]]
    | h :: r => if c = ' ' then [] :: h :: r else (c :: h) :: r

/-- Python `s.split(" ")`. -/
def pySplit (s : String) : List String := (splitSp s.toList).map String.mk

/-- The list comprehension `[int(k) for k, g in ...]`: all-or-nothing integer
parse of a token list (a `ValueError` at any token aborts the whole path). -/
def mapIntList : List String → Option (List Int)
  | [] => some []
  | t :: rest =>
    match pyInt t with
    | none => none
    | some v =>
      match mapIntList rest with
      | none => none
      | some vs => some (v :: vs)

/-- The sanitizer of rib_table.py: split the field on single spaces, collapse
maximal runs of equal string tokens (`itertools.groupby`), and parse every
run key as a Python int.  `none` models the `ValueError` path. -/
def sanitizePath (field : String) : Option (List Int) :=
  mapIntList ((pySplit field).destutter (· ≠ ·))

/-- `is_valid_path` of rib_table.py: `len(path) > 1 and path[0] == peer_asn`. -/
def is_valid_path (path : List Int) (peer_asn : Int) : Bool :=
  decide (1 < path.length) && decide (path.head? = some peer_asn)

/-- Modelled from the spec: "parse as a non-negative integer" read literally —
the token is a plain decimal numeral (digits only).  Used solely to state
claim C9 against the code's actual parser `pyInt`. -/
def specNonNegIntParse (s : String) : Option Int :=
  if s.toList ≠ [] ∧ ∀ c ∈ s.toList, c.isDigit then
    (pyDigits s.toList).map (fun n => (n : Int))
  else none

/-! ## The RIB store (rib_table.py) -/

/-- `prefix → as_path`, the innermost dict of `RIBTable.data`. -/
abbrev PfxMap := List (String × List Int)

/-- `peer_ip → prefix → as_path`, one collector's RIB (a `defaultdict(dict)`). -/
abbrev PeerMap := List (String × PfxMap)

/-- `RC → peer_ip → prefix → as_path`. -/
abbrev RibData := List (String × PeerMap)

/-- The processing window and peer allowlist handed to `RIBTable.__init__`.
Timestamps are rationals: the update stream carries fractional UNIX seconds. -/
structure Cfg where
  tsStart : ℚ
  tsEnd : ℚ
  peerFilter : List String
deriving DecidableEq

/-- Family classification of a prefix as in the code: a `"."` in the prefix
means IPv4, else a `":"` means IPv6, else no observer call is dispatched. -/
def famOf (pfx : String) : Option Bool :=
  if pfx.toList.contains '.' then some true
  else if pfx.toList.contains ':' then some false
  else none

/-- One notification sent to the observers (`fam = true` is IPv4). -/
inductive Event where
  | add (fam : Bool) (rc peer_ip pfx : String) (path : List Int)
  | ann (fam : Bool) (rc peer_ip pfx : String) (newPath : List Int) (oldPath : Option (List Int))
  | wd (fam : Bool) (rc peer_ip pfx : String) (path : List Int)
deriving DecidableEq

/-- The `_notify_update_withdrawal_ipv{4,6}` dispatch on a prefix. -/
def wdEvents (rc peer_ip pfx : String) (path : List Int) : List Event :=
  match famOf pfx with
  | some f => [Event.wd f rc peer_ip pfx path]
  | none => []

/-- The `_notify_update_announcement_ipv{4,6}` dispatch on a prefix. -/
def annEvents (rc peer_ip pfx : String) (newPath : List Int)
    (oldPath : Option (List Int)) : List Event :=
  match famOf pfx with
  | some f => [Event.ann f rc peer_ip pfx newPath oldPath]
  | none => []

/-- The `_notify_add_path_ipv{4,6}` dispatch on a prefix. -/
def addEvents (rc peer_ip pfx : String) (path : List Int) : List Event :=
  match famOf pfx with
  | some f => [Event.add f rc peer_ip pfx path]
  | none => []

/-- One `|`-separated line of an update file as consumed by
`_update_rib_from_url`: the number of fields decides the branch taken
(6 for `W`, 15 for `A`). -/
structure URecord where
  nfields : Nat
  ts : ℚ
  typ : String
  peer_ip : String
  peer_asn : Int
  pfx : String
  asPath : String
deriving DecidableEq

/-- The purge performed when an announcement's path is malformed or invalid:
if an entry exists it is withdrawn (notification with the old path) and
deleted; otherwise nothing happens. -/
def doPurge (rc peer_ip : String) (pfxOf : String) (pm : PeerMap) (pfxm : PfxMap) :
    PeerMap × List Event :=
  match mget pfxOf pfxm with
  | some old => (mset peer_ip (merase pfxOf pfxm) pm, wdEvents rc peer_ip pfxOf old)
  | none => (pm, [])

/-- The body of the per-record loop of `_update_rib_from_url`, after the
timestamp-window checks: peer filter, then the `W` / `A` branches. -/
def applyRec (cfg : Cfg) (rc : String) (pm : PeerMap) (r : URecord) :
    PeerMap × List Event :=
  if 0 < cfg.peerFilter.length ∧ r.peer_ip ∉ cfg.peerFilter then (pm, [])
  else if r.nfields = 6 ∧ r.typ = "W" then
    match mget r.peer_ip pm with
    | none => (pm, [])
    | some pfxm => doPurge rc r.peer_ip r.pfx pm pfxm
  else if r.nfields = 15 ∧ r.typ = "A" then
    match mget r.peer_ip pm with
    | none => (pm, [])
    | some pfxm =>
      match sanitizePath r.asPath with
      | none => doPurge rc r.peer_ip r.pfx pm pfxm
      | some newPath =>
        if is_valid_path newPath r.peer_asn then
          (mset r.peer_ip (mset r.pfx newPath pfxm) pm,
           annEvents rc r.peer_ip r.pfx newPath (mget r.pfx pfxm))
        else doPurge rc r.peer_ip r.pfx pm pfxm
  else (pm, [])

/-- Result of replaying one update file for one collector. -/
structure FileOut where
  pm : PeerMap
  stopped : Bool
  evs : List Event
deriving DecidableEq

/-- The record loop of `_update_rib_from_url`: records with `ts < ts_start`
are skipped with `continue`; the first record with `ts > ts_end + 1` makes
the function set `stop_updating[rc]` and `return`, dropping the rest of the
file; every other record goes through `applyRec`. -/
def runFile (cfg : Cfg) (rc : String) (pm : PeerMap) : List URecord → FileOut
  | [] => ⟨pm, false, []⟩
  | r :: rest =>
    if r.ts < cfg.tsStart then runFile cfg rc pm rest
    else if cfg.tsEnd + 1 < r.ts then ⟨pm, true, []⟩
    else
      let pe := applyRec cfg rc pm r
      let out := runFile cfg rc pe.1 rest
      ⟨out.pm, out.stopped, pe.2 ++ out.evs⟩

/-- The whole-table state: `data`, `stop_updating` and the accumulated
notification stream (observer state is a pure fold over `trace`). -/
structure RIBState where
  data : RibData
  stop : List (String × Bool)
  trace : List Event
deriving DecidableEq

/-- New `data` after `update` processes one collector's file
(`self._update_rib_from_url(self.data[rc], url, rc)` mutates the sub-dict in
place).  Note it does not depend on `stop_updating` at all. -/
def updateOneData (cfg : Cfg) (rc : String) (recs : List URecord) (d : RibData) : RibData :=
  match mget rc d with
  | none => d
  | some pm => mset rc (runFile cfg rc pm recs).pm d

/-- Events emitted while `update` processes one collector's file. -/
def updateOneEvents (cfg : Cfg) (rc : String) (recs : List URecord) (d : RibData) : List Event :=
  match mget rc d with
  | none => []
  | some pm => (runFile cfg rc pm recs).evs

/-- New `stop_updating` after one collector's file. -/
def updateOneStop (cfg : Cfg) (rc : String) (recs : List URecord) (d : RibData)
    (st : List (String × Bool)) : List (String × Bool) :=
  match mget rc d with
  | none => st
  | some pm => if (runFile cfg rc pm recs).stopped then mset rc true st else st

/-- One iteration of `RIBTable.update`'s `for rc, url in rc_to_url.items()`
loop, for the collector `rc` with the decoded records `recs`. -/
def updateOne (cfg : Cfg) (st : RIBState) (call : String × List URecord) : RIBState :=
  { data := updateOneData cfg call.1 call.2 st.data,
    stop := updateOneStop cfg call.1 call.2 st.data st.stop,
    trace := st.trace ++ updateOneEvents cfg call.1 call.2 st.data }

/-- A `RIBTable.update(rc_to_url)` call over several collectors. -/
def updateCall (cfg : Cfg) (st : RIBState) (calls : List (String × List URecord)) : RIBState :=
  calls.foldl (updateOne cfg) st

/-- One `|`-separated line of a RIB dump as consumed by
`_build_rib_from_url` (fields `res[3:7]`). -/
structure BRecord where
  peer_ip : String
  peer_asn : Int
  pfx : String
  asPath : String
deriving DecidableEq

/-- The body of the per-line loop of `_build_rib_from_url`: peer filter, path
sanitization, validity check, then installation plus `add_path` dispatch. -/
def buildStep (cfg : Cfg) (rc : String) (acc : PeerMap × List Event) (r : BRecord) :
    PeerMap × List Event :=
  if cfg.peerFilter.length = 0 ∨ r.peer_ip ∈ cfg.peerFilter then
    match sanitizePath r.asPath with
    | none => acc
    | some path =>
      if is_valid_path path r.peer_asn then
        (mset r.peer_ip (mset r.pfx path ((mget r.peer_ip acc.1).getD [])) acc.1,
         acc.2 ++ addEvents rc r.peer_ip r.pfx path)
      else acc
  else acc

/-- Replay of one collector's RIB dump from the empty `defaultdict(dict)`. -/
def buildFile (cfg : Cfg) (rc : String) (recs : List BRecord) : PeerMap × List Event :=
  recs.foldl (buildStep cfg rc) ([], [])

/-- Events emitted by `RIBTable.build` over all collectors, in dict order. -/
def buildEvents (cfg : Cfg) (m : List (String × List BRecord)) : List Event :=
  (m.map (fun p => (buildFile cfg p.1 p.2).2)).flatten

/-- `RIBTable.build(rc_to_url)`: `data` is replaced wholesale by the freshly
built per-collector RIBs, `stop_updating` is reset to all-false, observers
are notified of every installed path (the trace grows; observer aggregates
are never reset). -/
def buildTable (cfg : Cfg) (st : RIBState) (m : List (String × List BRecord)) : RIBState :=
  { data := m.map (fun p => (p.1, (buildFile cfg p.1 p.2).1)),
    stop := m.map (fun p => (p.1, false)),
    trace := st.trace ++ buildEvents cfg m }

/-! ## Observers

`ASGraphObserver` keeps two `networkx.Graph`s; an undirected edge carries a
`paths_count` attribute.  We model an undirected edge by its normalized
(sorted) endpoint pair; the node list records `add_edge`'s node insertion
(nodes survive `remove_edge`, which is what claim C6 turns on). -/

/-- Normalized unordered pair: the model key of an undirected nx edge. -/
def norm (p : Int × Int) : Int × Int := if p.1 ≤ p.2 then p else (p.2, p.1)

/-- nx node insertion: append if absent. -/
def addNode (ns : List Int) (x : Int) : List Int := if x ∈ ns then ns else ns ++ [x]

/-- State of one `networkx.Graph` with per-edge `paths_count`. -/
structure NGraph where
  nodes : List Int
  edges : List ((Int × Int) × Int)
deriving DecidableEq

/-- The try/except body of `ASGraphObserver._add_path` for one consecutive
pair: increment `paths_count`, or `add_edge(u, v, paths_count=1)` on
`KeyError` (which also inserts the endpoints as nodes). -/
def incrE (g : NGraph) (uv : Int × Int) : NGraph :=
  match mget (norm uv) g.edges with
  | some c => { g with edges := mset (norm uv) (c + 1) g.edges }
  | none =>
    { nodes := addNode (addNode g.nodes uv.1) uv.2,
      edges := mset (norm uv) 1 g.edges }

/-- The try/except body of `ASGraphObserver._remove_path` for one pair:
decrement, remove the edge when the count reaches 0, ignore `KeyError`.
`remove_edge` does not remove the endpoints from the node set. -/
def decrE (g : NGraph) (uv : Int × Int) : NGraph :=
  match mget (norm uv) g.edges with
  | some c =>
    if c - 1 = 0 then { g with edges := merase (norm uv) g.edges }
    else { g with edges := mset (norm uv) (c - 1) g.edges }
  | none => g

/-- Consecutive pairs `(path[l], path[l+1])` of the loop over
`range(0, len(path)-1)`. -/
def pairsOf (path : List Int) : List (Int × Int) := path.zip path.tail

/-- `ASGraphObserver._add_path`. -/
def addPathG (g : NGraph) (path : List Int) : NGraph := (pairsOf path).foldl incrE g

/-- `ASGraphObserver._remove_path`. -/
def remPathG (g : NGraph) (path : List Int) : NGraph := (pairsOf path).foldl decrE g

/-- `BaseGraphObserver.update_announcement_ipv{4,6}` restricted to one graph:
`if old_path: _remove_path(old); _add_path(new) else: _add_path(new)`. -/
def annG (g : NGraph) (newPath : List Int) (oldPath : Option (List Int)) : NGraph :=
  match oldPath with
  | some o => if o.isEmpty then addPathG g newPath else addPathG (remPathG g o) newPath
  | none => addPathG g newPath

/-- State of one `networkx.MultiGraph` with per-key `paths_count`: one
parallel edge per `"{rc}_{peer_ip}"` key, modelled flat as
`(normalized pair, key) → count`. -/
structure MGraph where
  nodes : List Int
  edges : List (((Int × Int) × String) × Int)
deriving DecidableEq

/-- `ASMultiGraphObserver._add_path` for one pair and one peer key. -/
def incrM (g : MGraph) (key : String) (uv : Int × Int) : MGraph :=
  match mget (norm uv, key) g.edges with
  | some c => { g with edges := mset (norm uv, key) (c + 1) g.edges }
  | none =>
    { nodes := addNode (addNode g.nodes uv.1) uv.2,
      edges := mset (norm uv, key) 1 g.edges }

/-- `ASMultiGraphObserver._remove_path` for one pair and one peer key. -/
def decrM (g : MGraph) (key : String) (uv : Int × Int) : MGraph :=
  match mget (norm uv, key) g.edges with
  | some c =>
    if c - 1 = 0 then { g with edges := merase (norm uv, key) g.edges }
    else { g with edges := mset (norm uv, key) (c - 1) g.edges }
  | none => g

/-- `ASMultiGraphObserver._add_path` with `key = f"{rc}_{peer_ip}"`. -/
def addPathM (g : MGraph) (key : String) (path : List Int) : MGraph :=
  (pairsOf path).foldl (fun h uv => incrM h key uv) g

/-- `ASMultiGraphObserver._remove_path`. -/
def remPathM (g : MGraph) (key : String) (path : List Int) : MGraph :=
  (pairsOf path).foldl (fun h uv => decrM h key uv) g

/-- Announcement handling on the multigraph. -/
def annM (g : MGraph) (key : String) (newPath : List Int) (oldPath : Option (List Int)) : MGraph :=
  match oldPath with
  | some o => if o.isEmpty then addPathM g key newPath
              else addPathM (remPathM g key o) key newPath
  | none => addPathM g key newPath

/-- `PathObserver.paths_count`: canonical path → multiplicity. -/
abbrev PathCount := List (List Int × Int)

/-- `PathObserver._add_path`: `paths_count[tuple(path)] += 1` on a
`defaultdict(int)`. -/
def addPathP (m : PathCount) (path : List Int) : PathCount :=
  match mget path m with
  | some c => mset path (c + 1) m
  | none => mset path 1 m

/-- `PathObserver._remove_path`: decrement, and `pop` when the result is
`<= 0`; decrementing an absent path creates `-1` and pops it right away,
leaving the dict unchanged. -/
def remPathP (m : PathCount) (path : List Int) : PathCount :=
  match mget path m with
  | some c => if c - 1 ≤ 0 then merase path m else mset path (c - 1) m
  | none => m

/-- `PathObserver.update_announcement_ipv{4,6}`. -/
def annP (m : PathCount) (newPath : List Int) (oldPath : Option (List Int)) : PathCount :=
  match oldPath with
  | some o => if o.isEmpty then addPathP m newPath else addPathP (remPathP m o) newPath
  | none => addPathP m newPath

/-- `UpdateCountObserver` state. -/
structure UCount where
  nupd : List (String × Int)
  nw4 : List (String × Int)
  nw6 : List (String × Int)
  na4 : List (String × Int)
  na6 : List (String × Int)
  perPeer : List (String × List (String × Int))
deriving DecidableEq

/-- `defaultdict(int)` increment. -/
def incrC (m : List (String × Int)) (k : String) : List (String × Int) :=
  mset k ((mget k m).getD 0 + 1) m

/-- `UpdateCountObserver.update_withdrawal_ipv{4,6}`. -/
def ucWd (u : UCount) (fam : Bool) (rc peer_ip : String) : UCount :=
  { u with
    nupd := incrC u.nupd rc,
    nw4 := if fam then incrC u.nw4 rc else u.nw4,
    nw6 := if fam then u.nw6 else incrC u.nw6 rc,
    perPeer := mset rc (incrC ((mget rc u.perPeer).getD []) peer_ip) u.perPeer }

/-- `UpdateCountObserver.update_announcement_ipv{4,6}`. -/
def ucAnn (u : UCount) (fam : Bool) (rc peer_ip : String) : UCount :=
  { u with
    nupd := incrC u.nupd rc,
    na4 := if fam then incrC u.na4 rc else u.na4,
    na6 := if fam then u.na6 else incrC u.na6 rc,
    perPeer := mset rc (incrC ((mget rc u.perPeer).getD []) peer_ip) u.perPeer }

/-- Joint state of the four observers attached in `warm_update_process`. -/
structure Obs where
  g4 : NGraph
  g6 : NGraph
  m4 : MGraph
  m6 : MGraph
  pc : PathCount
  uc : UCount
deriving DecidableEq

/-- Freshly constructed observers. -/
def obsInit : Obs :=
  { g4 := ⟨[], []⟩, g6 := ⟨[], []⟩, m4 := ⟨[], []⟩, m6 := ⟨[], []⟩, pc := [],
    uc := ⟨[], [], [], [], [], []⟩ }

/-- Multigraph parallel-edge key `f"{rc}_{peer_ip}"`. -/
def mkey (rc peer_ip : String) : String := rc ++ "_" ++ peer_ip

/-- Delivery of one RIB-store notification to all four observers. -/
def obsStep (o : Obs) (e : Event) : Obs :=
  match e with
  | .add fam rc peer_ip _ path =>
    if fam then
      { o with
        g4 := addPathG o.g4 path,
        m4 := addPathM o.m4 (mkey rc peer_ip) path,
        pc := addPathP o.pc path }
    else
      { o with
        g6 := addPathG o.g6 path,
        m6 := addPathM o.m6 (mkey rc peer_ip) path,
        pc := addPathP o.pc path }
  | .wd fam rc peer_ip _ path =>
    if fam then
      { o with
        g4 := remPathG o.g4 path,
        m4 := remPathM o.m4 (mkey rc peer_ip) path,
        pc := remPathP o.pc path,
        uc := ucWd o.uc fam rc peer_ip }
    else
      { o with
        g6 := remPathG o.g6 path,
        m6 := remPathM o.m6 (mkey rc peer_ip) path,
        pc := remPathP o.pc path,
        uc := ucWd o.uc fam rc peer_ip }
  | .ann fam rc peer_ip _ newPath oldPath =>
    if fam then
      { o with
        g4 := annG o.g4 newPath oldPath,
        m4 := annM o.m4 (mkey rc peer_ip) newPath oldPath,
        pc := annP o.pc newPath oldPath,
        uc := ucAnn o.uc fam rc peer_ip }
    else
      { o with
        g6 := annG o.g6 newPath oldPath,
        m6 := annM o.m6 (mkey rc peer_ip) newPath oldPath,
        pc := annP o.pc newPath oldPath,
        uc := ucAnn o.uc fam rc peer_ip }

/-- Observer aggregates as a pure fold over the notification stream. -/
def obsFold (t : List Event) : Obs := t.foldl obsStep obsInit

/-! ## Sanitizer lemmas -/

theorem mem_destutter' {α : Type} [DecidableEq α] :
    ∀ (l : List α) (a x : α), x ∈ a :: l → x ∈ l.destutter' (· ≠ ·) a := by
  intro l
  induction l with
  | nil =>
    intro a x hx
    simpa [List.destutter'_nil] using hx
  | cons b t ih =>
    intro a x hx
    by_cases hab : a ≠ b
    · rw [List.destutter'_cons_pos _ hab]
      rcases List.mem_cons.mp hx with h1 | h1
      · exact h1 ▸ List.mem_cons_self _ _
      · exact List.mem_cons_of_mem _ (ih b x h1)
    · rw [List.destutter'_cons_neg _ hab]
      push_neg at hab
      rcases List.mem_cons.mp hx with h1 | h1
      · exact ih a x (h1 ▸ List.mem_cons_self _ _)
      · rcases List.mem_cons.mp h1 with h2 | h2
        · exact ih a x (by rw [h2, ← hab]; exact List.mem_cons_self _ _)
        · exact ih a x (List.mem_cons_of_mem _ h2)

theorem mem_destutter {α : Type} [DecidableEq α] (l : List α) (x : α) :
    x ∈ l → x ∈ l.destutter (· ≠ ·) := by
  cases l with
  | nil => simp
  | cons a t =>
    rw [List.destutter_cons']
    exact mem_destutter' t a x

theorem mapIntList_eq_none_iff (l : List String) :
    mapIntList l = none ↔ ∃ t ∈ l, pyInt t = none := by
  induction l with
  | nil => simp [mapIntList]
  | cons t rest ih =>
    show (match pyInt t with
          | none => none
          | some v =>
            match mapIntList rest with
            | none => none
            | some vs => some (v :: vs)) = none ↔ _
    rcases ht : pyInt t with _ | v
    · simp only [ht]
      constructor
      · intro _
        exact ⟨t, List.mem_cons_self _ _, ht⟩
      · intro _
        trivial
    · rcases hr : mapIntList rest with _ | vs
      · simp only [ht, hr]
        constructor
        · intro _
          obtain ⟨u, hu, hp⟩ := ih.mp hr
          exact ⟨u, List.mem_cons_of_mem _ hu, hp⟩
        · intro _
          trivial
      · simp only [ht, hr]
        constructor
        · intro h
          exact absurd h (by simp)
        · rintro ⟨u, hu, hp⟩
          rcases List.mem_cons.mp hu with h1 | h1
          · rw [h1] at hp
            rw [hp] at ht
            exact absurd ht (by simp)
          · have hn := ih.mpr ⟨u, h1, hp⟩
            rw [hn] at hr
            exact absurd hr (by simp)

/-! ## Claim C9 — sanitizer malformed rule.

The claim reads the sanitizer as splitting on whitespace and rejecting iff
some token is not a non-negative integer.  The code splits on single spaces
and feeds each `groupby` run key to Python `int`, which also accepts signed
integers: the field `"100 -5"` has the token `"-5"`, not a non-negative
integer, yet the path is accepted as `[100, -5]`.  `c9_counterexample`
exhibits this; `c9_sanitizer_malformed_iff` proves the amended rule. -/

/-- C9 (counterexample): `"-5"` is a token of the field `"100 -5"` and does
not parse as a non-negative integer, yet the sanitizer accepts the field
(`some [100, -5]` — not malformed), contradicting the claimed "always
malformed" direction. -/
theorem c9_counterexample :
    "-5" ∈ pySplit "100 -5" ∧ specNonNegIntParse "-5" = none ∧
      sanitizePath "100 -5" = some [100, -5] := by
  decide

/-- C9 (amended): the AS-path field is split on single spaces and every
`groupby` run key is parsed by Python `int`; the path is malformed iff some
token of the split fails that integer parse (signed tokens such as `"-5"`
parse successfully and are accepted). -/
theorem c9_sanitizer_malformed_iff (field : String) :
    sanitizePath field = none ↔ ∃ t ∈ pySplit field, pyInt t = none := by
  unfold sanitizePath
  rw [mapIntList_eq_none_iff]
  constructor
  · rintro ⟨t, ht, htp⟩
    exact ⟨t, List.Sublist.mem ht (List.destutter_sublist _ _), htp⟩
  · rintro ⟨t, ht, htp⟩
    exact ⟨t, mem_destutter _ t ht, htp⟩

/-! ## Claim C5 — announcement symmetry. -/

/-- C5: for the graph, multigraph and path observers, an announcement
carrying a non-empty old path `o` and new path `n` has exactly the effect of
`_remove_path(o)` followed by `_add_path(n)` (code of
`BaseGraphObserver.update_announcement_ipv{4,6}` and
`PathObserver.update_announcement_ipv{4,6}`). -/
theorem c5_announcement_symmetry (g : NGraph) (mg : MGraph) (key : String)
    (pc : PathCount) (n o : List Int) (h : o ≠ []) :
    annG g n (some o) = addPathG (remPathG g o) n ∧
      annM mg key n (some o) = addPathM (remPathM mg key o) key n ∧
      annP pc n (some o) = addPathP (remPathP pc o) n := by
  have he : o.isEmpty = false := by simpa using h
  exact ⟨by simp [annG, he], by simp [annM, he], by simp [annP, he]⟩

/-- C5 witness at a concrete observer state and paths. -/
theorem c5_witness :
    ([1, 2] ≠ ([] : List Int)) ∧
      (annG ⟨[], []⟩ [1, 3] (some [1, 2]) = addPathG (remPathG ⟨[], []⟩ [1, 2]) [1, 3] ∧
        annM ⟨[], []⟩ "rc0_p" [1, 3] (some [1, 2]) =
          addPathM (remPathM ⟨[], []⟩ "rc0_p" [1, 2]) "rc0_p" [1, 3] ∧
        annP [([1, 2], 1)] [1, 3] (some [1, 2]) =
          addPathP (remPathP [([1, 2], 1)] [1, 2]) [1, 3]) :=
  ⟨by decide, c5_announcement_symmetry ⟨[], []⟩ ⟨[], []⟩ "rc0_p" [([1, 2], 1)] [1, 3] [1, 2] (by decide)⟩

/-! ## Claim C8 — malformed-announcement purge. -/

/-- C8: in `_update_rib_from_url`, an announcement record (15 fields, type
`A`) that passes the peer filter but whose AS-path fails sanitization
triggers the purge: if an entry exists at `(rc, peer_ip, pfx)` the store
emits exactly one withdrawal notification carrying the old path and deletes
the entry (the announcement itself installs nothing); if the prefix — or the
whole peer — is absent, the state is unchanged and nothing is emitted. -/
theorem c8_malformed_purge (cfg : Cfg) (rc : String) (pm : PeerMap) (r : URecord)
    (hn : r.nfields = 15) (ht : r.typ = "A")
    (hf : ¬(0 < cfg.peerFilter.length ∧ r.peer_ip ∉ cfg.peerFilter))
    (hs : sanitizePath r.asPath = none) :
    (∀ pfxm old fam, mget r.peer_ip pm = some pfxm → mget r.pfx pfxm = some old →
      famOf r.pfx = some fam →
      applyRec cfg rc pm r =
        (mset r.peer_ip (merase r.pfx pfxm) pm, [Event.wd fam rc r.peer_ip r.pfx old])) ∧
    (∀ pfxm, mget r.peer_ip pm = some pfxm → mget r.pfx pfxm = none →
      applyRec cfg rc pm r = (pm, [])) ∧
    (mget r.peer_ip pm = none → applyRec cfg rc pm r = (pm, [])) := by
  unfold applyRec
  rw [if_neg hf, if_neg (by simp [hn]), if_pos ⟨hn, ht⟩]
  refine ⟨?_, ?_, ?_⟩
  · intro pfxm old fam h1 h2 h3
    simp only [h1, hs, doPurge, h2, wdEvents, h3]
  · intro pfxm h1 h2
    simp only [h1, hs, doPurge, h2]
  · intro h1
    simp only [h1]

/-- C8 witness: scenario S5 of the spec with a malformed token — the
existing entry is withdrawn and removed, and exactly one IPv4 withdrawal
notification with the old path is emitted. -/
theorem c8_witness :
    sanitizePath "100 20x 300" = none ∧
      applyRec ⟨0, 100, []⟩ "rc0" [("1.2.3.4", [("10.0.0.0/24", [100, 200, 300])])]
          ⟨15, 50, "A", "1.2.3.4", 100, "10.0.0.0/24", "100 20x 300"⟩ =
        ([("1.2.3.4", [])], [Event.wd true "rc0" "1.2.3.4" "10.0.0.0/24" [100, 200, 300]]) := by
  refine ⟨by decide, ?_⟩
  have h := (c8_malformed_purge ⟨0, 100, []⟩ "rc0"
    [("1.2.3.4", [("10.0.0.0/24", [100, 200, 300])])]
    ⟨15, 50, "A", "1.2.3.4", 100, "10.0.0.0/24", "100 20x 300"⟩
    (by decide) (by decide) (by decide) (by decide)).1
    [("10.0.0.0/24", [100, 200, 300])] [100, 200, 300] true (by decide) (by decide) (by decide)
  rw [h]
  decide

/-! ## Claim C10 — rebuilding replaces the RIB but accumulates observers. -/

/-- C10: a second `build` on the same `RIBTable` replaces `data` wholesale
(the result does not depend on the prior state) and resets `stop_updating`
to all-false, but the notification trace only grows: the observer
aggregates, a fold over the trace, continue from their existing state, so
the new RIB's `add_path` notifications land on top of whatever the
observers already accumulated. -/
theorem c10_rebuild_frame (cfg : Cfg) (st st2 : RIBState)
    (m : List (String × List BRecord)) :
    (buildTable cfg st m).data = (buildTable cfg st2 m).data ∧
      (buildTable cfg st m).stop = m.map (fun p => (p.1, false)) ∧
      (buildTable cfg st m).trace = st.trace ++ buildEvents cfg m ∧
      obsFold (buildTable cfg st m).trace =
        (buildEvents cfg m).foldl obsStep (obsFold st.trace) := by
  refine ⟨rfl, rfl, rfl, ?_⟩
  show (st.trace ++ buildEvents cfg m).foldl obsStep obsInit = _
  rw [List.foldl_append]
  rfl

/-! ## Claim C7 — counts are positive in every reachable observer state. -/

/-- All stored counts of the four observers are strictly positive: graph and
multigraph `paths_count`s, path multiplicities, and every update counter. -/
def ObsCountsPos (o : Obs) : Prop :=
  (∀ e ∈ o.g4.edges, 0 < e.2) ∧ (∀ e ∈ o.g6.edges, 0 < e.2) ∧
    (∀ e ∈ o.m4.edges, 0 < e.2) ∧ (∀ e ∈ o.m6.edges, 0 < e.2) ∧
    (∀ e ∈ o.pc, 0 < e.2) ∧
    (∀ e ∈ o.uc.nupd, 0 < e.2) ∧ (∀ e ∈ o.uc.nw4, 0 < e.2) ∧
    (∀ e ∈ o.uc.nw6, 0 < e.2) ∧ (∀ e ∈ o.uc.na4, 0 < e.2) ∧
    (∀ e ∈ o.uc.na6, 0 < e.2) ∧
    (∀ e ∈ o.uc.perPeer, ∀ e2 ∈ e.2, 0 < e2.2)

theorem foldl_preserve {σ τ : Type} (P : σ → Prop) (f : σ → τ → σ) :
    ∀ (l : List τ) (s : σ), P s → (∀ s2 x, P s2 → P (f s2 x)) → P (l.foldl f s) := by
  intro l
  induction l with
  | nil => intro s hs _; exact hs
  | cons x t ih => intro s hs hf; exact ih (f s x) (hf s x hs) hf

theorem pos_incrE (g : NGraph) (uv : Int × Int) (h : ∀ e ∈ g.edges, 0 < e.2) :
    ∀ e ∈ (incrE g uv).edges, 0 < e.2 := by
  intro e he
  unfold incrE at he
  rcases hg : mget (norm uv) g.edges with _ | c
  · simp only [hg] at he
    rcases mem_mset e (norm uv) 1 g.edges he with h1 | h1
    · rw [h1]
      exact Int.zero_lt_one
    · exact h e h1
  · simp only [hg] at he
    rcases mem_mset e (norm uv) (c + 1) g.edges he with h1 | h1
    · rw [h1]
      have := h (norm uv, c) (mget_mem _ _ _ hg)
      omega
    · exact h e h1

theorem pos_decrE (g : NGraph) (uv : Int × Int) (h : ∀ e ∈ g.edges, 0 < e.2) :
    ∀ e ∈ (decrE g uv).edges, 0 < e.2 := by
  intro e he
  unfold decrE at he
  rcases hg : mget (norm uv) g.edges with _ | c
  · simp only [hg] at he
    exact h e he
  · simp only [hg] at he
    by_cases hc : c - 1 = 0
    · rw [if_pos hc] at he
      exact h e (mem_merase e _ _ he)
    · rw [if_neg hc] at he
      rcases mem_mset e (norm uv) (c - 1) g.edges he with h1 | h1
      · rw [h1]
        have := h (norm uv, c) (mget_mem _ _ _ hg)
        omega
      · exact h e h1

theorem pos_addPathG (g : NGraph) (p : List Int) (h : ∀ e ∈ g.edges, 0 < e.2) :
    ∀ e ∈ (addPathG g p).edges, 0 < e.2 :=
  foldl_preserve (fun g2 => ∀ e ∈ NGraph.edges g2, 0 < e.2) incrE (pairsOf p) g h
    (fun g2 uv hg2 => pos_incrE g2 uv hg2)

theorem pos_remPathG (g : NGraph) (p : List Int) (h : ∀ e ∈ g.edges, 0 < e.2) :
    ∀ e ∈ (remPathG g p).edges, 0 < e.2 :=
  foldl_preserve (fun g2 => ∀ e ∈ NGraph.edges g2, 0 < e.2) decrE (pairsOf p) g h
    (fun g2 uv hg2 => pos_decrE g2 uv hg2)

theorem pos_annG (g : NGraph) (n : List Int) (o : Option (List Int))
    (h : ∀ e ∈ g.edges, 0 < e.2) : ∀ e ∈ (annG g n o).edges, 0 < e.2 := by
  rcases o with _ | op
  · simp only [annG]
    exact pos_addPathG g n h
  · simp only [annG]
    by_cases hop : op.isEmpty
    · rw [if_pos hop]
      exact pos_addPathG g n h
    · rw [if_neg hop]
      exact pos_addPathG _ n (pos_remPathG g op h)

theorem pos_incrM (g : MGraph) (key : String) (uv : Int × Int)
    (h : ∀ e ∈ g.edges, 0 < e.2) : ∀ e ∈ (incrM g key uv).edges, 0 < e.2 := by
  intro e he
  unfold incrM at he
  rcases hg : mget (norm uv, key) g.edges with _ | c
  · simp only [hg] at he
    rcases mem_mset e (norm uv, key) 1 g.edges he with h1 | h1
    · rw [h1]
      exact Int.zero_lt_one
    · exact h e h1
  · simp only [hg] at he
    rcases mem_mset e (norm uv, key) (c + 1) g.edges he with h1 | h1
    · rw [h1]
      have := h ((norm uv, key), c) (mget_mem _ _ _ hg)
      omega
    · exact h e h1

theorem pos_decrM (g : MGraph) (key : String) (uv : Int × Int)
    (h : ∀ e ∈ g.edges, 0 < e.2) : ∀ e ∈ (decrM g key uv).edges, 0 < e.2 := by
  intro e he
  unfold decrM at he
  rcases hg : mget (norm uv, key) g.edges with _ | c
  · simp only [hg] at he
    exact h e he
  · simp only [hg] at he
    by_cases hc : c - 1 = 0
    · rw [if_pos hc] at he
      exact h e (mem_merase e _ _ he)
    · rw [if_neg hc] at he
      rcases mem_mset e (norm uv, key) (c - 1) g.edges he with h1 | h1
      · rw [h1]
        have := h ((norm uv, key), c) (mget_mem _ _ _ hg)
        omega
      · exact h e h1

theorem pos_addPathM (g : MGraph) (key : String) (p : List Int)
    (h : ∀ e ∈ g.edges, 0 < e.2) : ∀ e ∈ (addPathM g key p).edges, 0 < e.2 :=
  foldl_preserve (fun g2 => ∀ e ∈ MGraph.edges g2, 0 < e.2) _ (pairsOf p) g h
    (fun g2 uv hg2 => pos_incrM g2 key uv hg2)

theorem pos_remPathM (g : MGraph) (key : String) (p : List Int)
    (h : ∀ e ∈ g.edges, 0 < e.2) : ∀ e ∈ (remPathM g key p).edges, 0 < e.2 :=
  foldl_preserve (fun g2 => ∀ e ∈ MGraph.edges g2, 0 < e.2) _ (pairsOf p) g h
    (fun g2 uv hg2 => pos_decrM g2 key uv hg2)

theorem pos_annM (g : MGraph) (key : String) (n : List Int) (o : Option (List Int))
    (h : ∀ e ∈ g.edges, 0 < e.2) : ∀ e ∈ (annM g key n o).edges, 0 < e.2 := by
  rcases o with _ | op
  · simp only [annM]
    exact pos_addPathM g key n h
  · simp only [annM]
    by_cases hop : op.isEmpty
    · rw [if_pos hop]
      exact pos_addPathM g key n h
    · rw [if_neg hop]
      exact pos_addPathM _ key n (pos_remPathM g key op h)

theorem pos_addPathP (m : PathCount) (p : List Int) (h : ∀ e ∈ m, 0 < e.2) :
    ∀ e ∈ addPathP m p, 0 < e.2 := by
  intro e he
  unfold addPathP at he
  rcases hg : mget p m with _ | c
  · simp only [hg] at he
    rcases mem_mset e p 1 m he with h1 | h1
    · rw [h1]
      exact Int.zero_lt_one
    · exact h e h1
  · simp only [hg] at he
    rcases mem_mset e p (c + 1) m he with h1 | h1
    · rw [h1]
      have := h (p, c) (mget_mem _ _ _ hg)
      omega
    · exact h e h1

theorem pos_remPathP (m : PathCount) (p : List Int) (h : ∀ e ∈ m, 0 < e.2) :
    ∀ e ∈ remPathP m p, 0 < e.2 := by
  intro e he
  unfold remPathP at he
  rcases hg : mget p m with _ | c
  · simp only [hg] at he
    exact h e he
  · simp only [hg] at he
    by_cases hc : c - 1 ≤ 0
    · rw [if_pos hc] at he
      exact h e (mem_merase e _ _ he)
    · rw [if_neg hc] at he
      rcases mem_mset e p (c - 1) m he with h1 | h1
      · rw [h1]
        omega
      · exact h e h1

theorem pos_annP (m : PathCount) (n : List Int) (o : Option (List Int))
    (h : ∀ e ∈ m, 0 < e.2) : ∀ e ∈ annP m n o, 0 < e.2 := by
  rcases o with _ | op
  · simp only [annP]
    exact pos_addPathP m n h
  · simp only [annP]
    by_cases hop : op.isEmpty
    · rw [if_pos hop]
      exact pos_addPathP m n h
    · rw [if_neg hop]
      exact pos_addPathP _ n (pos_remPathP m op h)

theorem pos_incrC (m : List (String × Int)) (k : String) (h : ∀ e ∈ m, 0 < e.2) :
    ∀ e ∈ incrC m k, 0 < e.2 := by
  intro e he
  unfold incrC at he
  rcases mem_mset e k ((mget k m).getD 0 + 1) m he with h1 | h1
  · rw [h1]
    rcases hg : mget k m with _ | c
    · simp [hg]
    · have := h (k, c) (mget_mem _ _ _ hg)
      simp [hg]
      omega
  · exact h e h1

theorem pos_ucWd (u : UCount) (fam : Bool) (rc peer_ip : String)
    (h1 : ∀ e ∈ u.nupd, 0 < e.2) (h2 : ∀ e ∈ u.nw4, 0 < e.2)
    (h3 : ∀ e ∈ u.nw6, 0 < e.2)
    (h6 : ∀ e ∈ u.perPeer, ∀ e2 ∈ e.2, 0 < e2.2) :
    (∀ e ∈ (ucWd u fam rc peer_ip).nupd, 0 < e.2) ∧
      (∀ e ∈ (ucWd u fam rc peer_ip).nw4, 0 < e.2) ∧
      (∀ e ∈ (ucWd u fam rc peer_ip).nw6, 0 < e.2) ∧
      (∀ e ∈ (ucWd u fam rc peer_ip).perPeer, ∀ e2 ∈ e.2, 0 < e2.2) := by
  refine ⟨pos_incrC _ _ h1, ?_, ?_, ?_⟩
  · show ∀ e ∈ (if fam then incrC u.nw4 rc else u.nw4), 0 < e.2
    cases fam
    · simpa using h2
    · simpa using pos_incrC _ rc h2
  · show ∀ e ∈ (if fam then u.nw6 else incrC u.nw6 rc), 0 < e.2
    cases fam
    · simpa using pos_incrC _ rc h3
    · simpa using h3
  · show ∀ e ∈ mset rc (incrC ((mget rc u.perPeer).getD []) peer_ip) u.perPeer, _
    intro e he
    rcases mem_mset e rc _ u.perPeer he with hh | hh
    · rw [hh]
      rcases hg : mget rc u.perPeer with _ | inner
      · simp only [hg, Option.getD]
        exact pos_incrC [] peer_ip (by simp)
      · simp only [hg, Option.getD]
        exact pos_incrC inner peer_ip (h6 (rc, inner) (mget_mem _ _ _ hg))
    · exact h6 e hh

theorem pos_ucAnn (u : UCount) (fam : Bool) (rc peer_ip : String)
    (h1 : ∀ e ∈ u.nupd, 0 < e.2) (h4 : ∀ e ∈ u.na4, 0 < e.2)
    (h5 : ∀ e ∈ u.na6, 0 < e.2)
    (h6 : ∀ e ∈ u.perPeer, ∀ e2 ∈ e.2, 0 < e2.2) :
    (∀ e ∈ (ucAnn u fam rc peer_ip).nupd, 0 < e.2) ∧
      (∀ e ∈ (ucAnn u fam rc peer_ip).na4, 0 < e.2) ∧
      (∀ e ∈ (ucAnn u fam rc peer_ip).na6, 0 < e.2) ∧
      (∀ e ∈ (ucAnn u fam rc peer_ip).perPeer, ∀ e2 ∈ e.2, 0 < e2.2) := by
  refine ⟨pos_incrC _ _ h1, ?_, ?_, ?_⟩
  · show ∀ e ∈ (if fam then incrC u.na4 rc else u.na4), 0 < e.2
    cases fam
    · simpa using h4
    · simpa using pos_incrC _ rc h4
  · show ∀ e ∈ (if fam then u.na6 else incrC u.na6 rc), 0 < e.2
    cases fam
    · simpa using pos_incrC _ rc h5
    · simpa using h5
  · show ∀ e ∈ mset rc (incrC ((mget rc u.perPeer).getD []) peer_ip) u.perPeer, _
    intro e he
    rcases mem_mset e rc _ u.perPeer he with hh | hh
    · rw [hh]
      rcases hg : mget rc u.perPeer with _ | inner
      · simp only [hg, Option.getD]
        exact pos_incrC [] peer_ip (by simp)
      · simp only [hg, Option.getD]
        exact pos_incrC inner peer_ip (h6 (rc, inner) (mget_mem _ _ _ hg))
    · exact h6 e hh

theorem obsCountsPos_step (o : Obs) (e : Event) (h : ObsCountsPos o) :
    ObsCountsPos (obsStep o e) := by
  obtain ⟨h1, h2, h3, h4, h5, h6, h7, h8, h9, h10, h11⟩ := h
  cases e with
  | add fam rc peer_ip pfx path =>
    cases fam
    · exact ⟨h1, pos_addPathG _ _ h2, h3, pos_addPathM _ _ _ h4,
        pos_addPathP _ _ h5, h6, h7, h8, h9, h10, h11⟩
    · exact ⟨pos_addPathG _ _ h1, h2, pos_addPathM _ _ _ h3, h4,
        pos_addPathP _ _ h5, h6, h7, h8, h9, h10, h11⟩
  | wd fam rc peer_ip pfx path =>
    cases fam
    · obtain ⟨w1, w2, w3, w4⟩ := pos_ucWd o.uc false rc peer_ip h6 h7 h8 h11
      exact ⟨h1, pos_remPathG _ _ h2, h3, pos_remPathM _ _ _ h4,
        pos_remPathP _ _ h5, w1, w2, w3, h9, h10, w4⟩
    · obtain ⟨w1, w2, w3, w4⟩ := pos_ucWd o.uc true rc peer_ip h6 h7 h8 h11
      exact ⟨pos_remPathG _ _ h1, h2, pos_remPathM _ _ _ h3, h4,
        pos_remPathP _ _ h5, w1, w2, w3, h9, h10, w4⟩
  | ann fam rc peer_ip pfx newPath oldPath =>
    cases fam
    · obtain ⟨w1, w2, w3, w4⟩ := pos_ucAnn o.uc false rc peer_ip h6 h9 h10 h11
      exact ⟨h1, pos_annG _ _ _ h2, h3, pos_annM _ _ _ _ h4,
        pos_annP _ _ _ h5, w1, h7, h8, w2, w3, w4⟩
    · obtain ⟨w1, w2, w3, w4⟩ := pos_ucAnn o.uc true rc peer_ip h6 h9 h10 h11
      exact ⟨pos_annG _ _ _ h1, h2, pos_annM _ _ _ _ h3, h4,
        pos_annP _ _ _ h5, w1, h7, h8, w2, w3, w4⟩

/-- C7: in every observer state reachable from the fresh observers by any
sequence of `add_path`, `update_announcement` and `update_withdrawal`
notifications, every stored count — graph-edge `paths_count`, multigraph
per-key `paths_count`, path multiplicity, and every update counter — is
strictly positive: no count is ever negative, and an edge or path whose
count reaches zero is removed rather than kept at zero. -/
theorem c7_nonnegativity (evs : List Event) : ObsCountsPos (obsFold evs) := by
  unfold obsFold
  refine foldl_preserve ObsCountsPos obsStep evs obsInit ?_ ?_
  · refine ⟨?_, ?_, ?_, ?_, ?_, ?_, ?_, ?_, ?_, ?_, ?_⟩ <;> simp [obsInit]
  · exact obsCountsPos_step

/-! ## Claim C6 — round-trip `add_path; remove_path`.

For the path observer the round trip restores the dict exactly.  For the
graph observer the edge structure (`paths_count` of every edge) is restored,
but `add_edge` inserts the path's ASNs as nodes and `remove_edge` never
removes nodes, so nodes introduced by `add_path` survive as isolates:
the full graph state is not restored (`c6_counterexample`). -/

/-- Occurrences of the normalized edge `k` among consecutive pairs `ps`. -/
def multN (k : Int × Int) : List (Int × Int) → Nat
  | [] => 0
  | q :: t => (if norm q = k then 1 else 0) + multN k t

theorem cnt_incrE (g : NGraph) (uv : Int × Int) (k : Int × Int) :
    mget k (incrE g uv).edges =
      if norm uv = k then some ((mget (norm uv) g.edges).getD 0 + 1)
      else mget k g.edges := by
  unfold incrE
  rcases hg : mget (norm uv) g.edges with _ | c
  · simp only [hg]
    by_cases hk : norm uv = k
    · rw [if_pos hk, ← hk, mget_mset_self]
      rfl
    · rw [if_neg hk, mget_mset_ne _ _ _ _ hk]
  · simp only [hg]
    by_cases hk : norm uv = k
    · rw [if_pos hk, ← hk, mget_mset_self]
      rfl
    · rw [if_neg hk, mget_mset_ne _ _ _ _ hk]

theorem cnt_decrE (g : NGraph) (uv : Int × Int) (k : Int × Int)
    (hnd : keysND g.edges) :
    mget k (decrE g uv).edges =
      if norm uv = k then
        (match mget (norm uv) g.edges with
         | none => none
         | some c => if c - 1 = 0 then none else some (c - 1))
      else mget k g.edges := by
  unfold decrE
  rcases hg : mget (norm uv) g.edges with _ | c
  · simp only [hg]
    by_cases hk : norm uv = k
    · rw [if_pos hk, ← hk, hg]
    · rw [if_neg hk]
  · simp only [hg]
    by_cases hc : c - 1 = 0
    · rw [if_pos hc]
      by_cases hk : norm uv = k
      · rw [if_pos hk, if_pos hc, ← hk]
        exact mget_merase_self _ _ hnd
      · rw [if_neg hk]
        exact mget_merase_ne _ _ _ hk
    · rw [if_neg hc]
      by_cases hk : norm uv = k
      · rw [if_pos hk, if_neg hc, ← hk, mget_mset_self]
      · rw [if_neg hk, mget_mset_ne _ _ _ _ hk]

theorem nd_incrE (g : NGraph) (uv : Int × Int) (h : keysND g.edges) :
    keysND (incrE g uv).edges := by
  unfold incrE
  rcases hg : mget (norm uv) g.edges with _ | c <;> simp only [hg] <;>
    exact keysND_mset _ _ _ h

theorem nd_decrE (g : NGraph) (uv : Int × Int) (h : keysND g.edges) :
    keysND (decrE g uv).edges := by
  unfold decrE
  rcases hg : mget (norm uv) g.edges with _ | c
  · simp only [hg]
    exact h
  · simp only [hg]
    by_cases hc : c - 1 = 0
    · rw [if_pos hc]
      exact keysND_merase _ _ h
    · rw [if_neg hc]
      exact keysND_mset _ _ _ h

theorem nodes_decrE (g : NGraph) (uv : Int × Int) : (decrE g uv).nodes = g.nodes := by
  unfold decrE
  rcases hg : mget (norm uv) g.edges with _ | c
  · simp only [hg]
  · simp only [hg]
    by_cases hc : c - 1 = 0
    · rw [if_pos hc]
    · rw [if_neg hc]

theorem cnt_addPath_aux :
    ∀ (ps : List (Int × Int)) (g : NGraph) (k : Int × Int),
      mget k (ps.foldl incrE g).edges =
        if multN k ps = 0 then mget k g.edges
        else some ((mget k g.edges).getD 0 + (multN k ps : Int)) := by
  intro ps
  induction ps with
  | nil =>
    intro g k
    simp [multN]
  | cons q t ih =>
    intro g k
    show mget k (t.foldl incrE (incrE g q)).edges = _
    rw [ih (incrE g q) k]
    by_cases hqk : norm q = k
    · have hcnt : mget k (incrE g q).edges = some ((mget k g.edges).getD 0 + 1) := by
        rw [cnt_incrE g q k, if_pos hqk, hqk]
      have hm : multN k (q :: t) = 1 + multN k t := by
        show (if norm q = k then 1 else 0) + multN k t = _
        rw [if_pos hqk]
      rw [hcnt, hm]
      by_cases hm2 : multN k t = 0
      · rw [if_pos hm2, if_neg (by omega)]
        simp [hm2]
      · rw [if_neg hm2, if_neg (by omega)]
        simp only [Option.getD_some]
        congr 1
        push_cast
        ring
    · have hcnt : mget k (incrE g q).edges = mget k g.edges := by
        rw [cnt_incrE g q k, if_neg hqk]
      have hm : multN k (q :: t) = multN k t := by
        show (if norm q = k then 1 else 0) + multN k t = _
        rw [if_neg hqk]
        omega
      rw [hcnt, hm]

theorem nd_addPath_aux :
    ∀ (ps : List (Int × Int)) (g : NGraph), keysND g.edges →
      keysND (ps.foldl incrE g).edges := by
  intro ps
  induction ps with
  | nil => intro g h; exact h
  | cons q t ih => intro g h; exact ih (incrE g q) (nd_incrE g q h)

theorem cnt_removePairs :
    ∀ (ps : List (Int × Int)) (h gT : NGraph), keysND h.edges →
      (∀ e ∈ gT.edges, 0 < e.2) →
      (∀ k, mget k h.edges =
        if multN k ps = 0 then mget k gT.edges
        else some ((mget k gT.edges).getD 0 + (multN k ps : Int))) →
      ∀ k, mget k (ps.foldl decrE h).edges = mget k gT.edges := by
  intro ps
  induction ps with
  | nil =>
    intro h gT _ _ hrel k
    have := hrel k
    simpa [multN] using this
  | cons q t ih =>
    intro h gT hnd hpos hrel k
    show mget k (t.foldl decrE (decrE h q)).edges = _
    refine ih (decrE h q) gT (nd_decrE h q hnd) hpos ?_ k
    intro k2
    rw [cnt_decrE h q k2 hnd]
    by_cases hq : norm q = k2
    · subst hq
      rw [if_pos rfl]
      have hm : multN (norm q) (q :: t) = 1 + multN (norm q) t := by
        show (if norm q = norm q then 1 else 0) + multN (norm q) t = _
        rw [if_pos rfl]
      have hrel2 := hrel (norm q)
      rw [hm, if_neg (by omega)] at hrel2
      simp only [hrel2]
      rcases hT : mget (norm q) gT.edges with _ | cT
      · simp only [hT, Option.getD_none]
        by_cases hm2 : multN (norm q) t = 0
        · rw [if_pos hm2, hm2]
          norm_num
        · rw [if_neg hm2, if_neg (by omega)]
          congr 1
          push_cast
          ring
      · have hcT : 0 < cT := hpos (norm q, cT) (mget_mem _ _ _ hT)
        simp only [hT, Option.getD_some]
        rw [if_neg (by omega)]
        by_cases hm2 : multN (norm q) t = 0
        · rw [if_pos hm2, hm2]
          congr 1
          push_cast
          ring
        · rw [if_neg hm2]
          congr 1
          push_cast
          ring
    · rw [if_neg hq]
      have hm : multN k2 (q :: t) = multN k2 t := by
        show (if norm q = k2 then 1 else 0) + multN k2 t = _
        rw [if_neg hq]
        omega
      have hrel2 := hrel k2
      rw [hm] at hrel2
      exact hrel2

theorem nodes_remPath_aux :
    ∀ (ps : List (Int × Int)) (g : NGraph), (ps.foldl decrE g).nodes = g.nodes := by
  intro ps
  induction ps with
  | nil => intro g; rfl
  | cons q t ih =>
    intro g
    show (t.foldl decrE (decrE g q)).nodes = _
    rw [ih (decrE g q), nodes_decrE]

/-- C6 (amended): `add_path(p)` followed by `remove_path(p)` restores the
path observer exactly, and restores every edge `paths_count` of the graph
observer; but the node set of the graph after the round trip is that of the
graph after `add_path` — ASNs newly inserted by `add_path` survive as
isolated nodes, so the graph observer need not return to its full prior
state. -/
theorem c6_roundtrip_amended (g : NGraph) (m : PathCount) (p : List Int)
    (hnd : keysND g.edges) (hpos : ∀ e ∈ g.edges, 0 < e.2)
    (hposP : ∀ e ∈ m, 0 < e.2) :
    (∀ k, mget k (remPathG (addPathG g p) p).edges = mget k g.edges) ∧
      (remPathG (addPathG g p) p).nodes = (addPathG g p).nodes ∧
      remPathP (addPathP m p) p = m := by
  refine ⟨?_, nodes_remPath_aux (pairsOf p) (addPathG g p), ?_⟩
  · exact cnt_removePairs (pairsOf p) (addPathG g p) g
      (nd_addPath_aux (pairsOf p) g hnd) hpos (fun k => cnt_addPath_aux (pairsOf p) g k)
  · unfold addPathP remPathP
    rcases hg : mget p m with _ | c
    · simp only [hg, mget_mset_self]
      rw [if_pos (by omega)]
      exact merase_mset_absent p 1 m hg
    · have hc : 0 < c := hposP (p, c) (mget_mem _ _ _ hg)
      simp only [hg, mget_mset_self]
      rw [if_neg (by omega), mset_mset_self, show c + 1 - 1 = c by ring,
        mset_eq_of_mget _ _ _ hg]

/-- C6 (counterexample): on the empty graph observer, `add_path([1,2])`
followed by `remove_path([1,2])` does not restore the prior state — the
nodes 1 and 2 remain as isolated vertices. -/
theorem c6_counterexample :
    remPathG (addPathG ⟨[], []⟩ [1, 2]) [1, 2] ≠ (⟨[], []⟩ : NGraph) := by
  decide

/-- C6 witness at a concrete graph, path map and path. -/
theorem c6_witness :
    (keysND (⟨[1, 2], [((1, 2), 1)]⟩ : NGraph).edges ∧
        (∀ e ∈ (⟨[1, 2], [((1, 2), 1)]⟩ : NGraph).edges, 0 < e.2) ∧
        (∀ e ∈ ([([5, 6], 2)] : PathCount), 0 < e.2)) ∧
      ((∀ k, mget k (remPathG (addPathG ⟨[1, 2], [((1, 2), 1)]⟩ [2, 3, 1]) [2, 3, 1]).edges =
          mget k (⟨[1, 2], [((1, 2), 1)]⟩ : NGraph).edges) ∧
        (remPathG (addPathG ⟨[1, 2], [((1, 2), 1)]⟩ [2, 3, 1]) [2, 3, 1]).nodes =
          (addPathG ⟨[1, 2], [((1, 2), 1)]⟩ [2, 3, 1]).nodes ∧
        remPathP (addPathP [([5, 6], 2)] [2, 3, 1]) [2, 3, 1] = [([5, 6], 2)]) :=
  ⟨⟨by decide, by decide, by decide⟩,
    c6_roundtrip_amended ⟨[1, 2], [((1, 2), 1)]⟩ [([5, 6], 2)] [2, 3, 1]
      (by decide) (by decide) (by decide)⟩

/-! ## Claim C4 — windowing. -/

/-- The records of a file that the window lets through: the part of the file
before the first record beyond `ts_end + 1 s`, minus the records before
`ts_start`. -/
def windowed (cfg : Cfg) (recs : List URecord) : List URecord :=
  (recs.takeWhile (fun r => !decide (cfg.tsEnd + 1 < r.ts))).filter
    (fun r => !decide (r.ts < cfg.tsStart))

theorem runFile_windowed (cfg : Cfg) (rc : String) (hcfg : cfg.tsStart ≤ cfg.tsEnd + 1) :
    ∀ (recs : List URecord) (pm : PeerMap),
      (runFile cfg rc pm recs).pm = (runFile cfg rc pm (windowed cfg recs)).pm ∧
        (runFile cfg rc pm recs).evs = (runFile cfg rc pm (windowed cfg recs)).evs := by
  intro recs
  induction recs with
  | nil => intro pm; exact ⟨rfl, rfl⟩
  | cons r rest ih =>
    intro pm
    by_cases hlow : r.ts < cfg.tsStart
    · have hnothigh : ¬cfg.tsEnd + 1 < r.ts := by
        intro hh
        exact absurd (lt_of_le_of_lt hcfg hh) (not_lt.mpr (le_of_lt hlow))
      have hw : windowed cfg (r :: rest) = windowed cfg rest := by
        unfold windowed
        rw [List.takeWhile_cons, if_pos (by simp [hnothigh]), List.filter_cons,
          if_neg (by simp [hlow])]
      rw [hw]
      have hrun : runFile cfg rc pm (r :: rest) = runFile cfg rc pm rest := by
        rw [runFile, if_pos hlow]
      rw [hrun]
      exact ih pm
    · by_cases hhigh : cfg.tsEnd + 1 < r.ts
      · have hw : windowed cfg (r :: rest) = [] := by
          unfold windowed
          rw [List.takeWhile_cons, if_neg (by simp [hhigh])]
          rfl
        have hrun : runFile cfg rc pm (r :: rest) = ⟨pm, true, []⟩ := by
          rw [runFile, if_neg hlow, if_pos hhigh]
        rw [hw, hrun]
        exact ⟨rfl, rfl⟩
      · have hw : windowed cfg (r :: rest) = r :: windowed cfg rest := by
          unfold windowed
          rw [List.takeWhile_cons, if_pos (by simp [hhigh]), List.filter_cons,
            if_pos (by simp [hlow])]
        have hrun : runFile cfg rc pm (r :: rest) =
            ⟨(runFile cfg rc (applyRec cfg rc pm r).1 rest).pm,
              (runFile cfg rc (applyRec cfg rc pm r).1 rest).stopped,
              (applyRec cfg rc pm r).2 ++ (runFile cfg rc (applyRec cfg rc pm r).1 rest).evs⟩ := by
          rw [runFile, if_neg hlow, if_neg hhigh]
        have hrun2 : runFile cfg rc pm (r :: windowed cfg rest) =
            ⟨(runFile cfg rc (applyRec cfg rc pm r).1 (windowed cfg rest)).pm,
              (runFile cfg rc (applyRec cfg rc pm r).1 (windowed cfg rest)).stopped,
              (applyRec cfg rc pm r).2 ++
                (runFile cfg rc (applyRec cfg rc pm r).1 (windowed cfg rest)).evs⟩ := by
          rw [runFile, if_neg hlow, if_neg hhigh]
        rw [hw, hrun, hrun2]
        obtain ⟨ihp, ihe⟩ := ih (applyRec cfg rc pm r).1
        exact ⟨ihp, by rw [show (runFile cfg rc (applyRec cfg rc pm r).1 rest).evs =
          (runFile cfg rc (applyRec cfg rc pm r).1 (windowed cfg rest)).evs from ihe]⟩

/-- C4: in `_update_rib_from_url` (for any configuration whose window is
non-degenerate, `ts_start ≤ ts_end + 1`): a record before `ts_start` is
silently skipped; the first record beyond `ts_end + 1 s` sets
`stop_updating[rc]` and ends the file with no further effect; consequently
the RIB data, the emitted notifications, and hence every observer state fed
by them are exactly those of the stream restricted to the window. -/
theorem c4_windowing (cfg : Cfg) (rc : String) (hcfg : cfg.tsStart ≤ cfg.tsEnd + 1) :
    (∀ (pm : PeerMap) (r : URecord) (rest : List URecord), r.ts < cfg.tsStart →
      runFile cfg rc pm (r :: rest) = runFile cfg rc pm rest) ∧
      (∀ (pm : PeerMap) (r : URecord) (rest : List URecord), cfg.tsEnd + 1 < r.ts →
        runFile cfg rc pm (r :: rest) = ⟨pm, true, []⟩) ∧
      (∀ (pm : PeerMap) (recs : List URecord),
        (runFile cfg rc pm recs).pm = (runFile cfg rc pm (windowed cfg recs)).pm ∧
          (runFile cfg rc pm recs).evs = (runFile cfg rc pm (windowed cfg recs)).evs ∧
          ∀ o : Obs, (runFile cfg rc pm recs).evs.foldl obsStep o =
            (runFile cfg rc pm (windowed cfg recs)).evs.foldl obsStep o) := by
  refine ⟨?_, ?_, ?_⟩
  · intro pm r rest hlow
    rw [runFile, if_pos hlow]
  · intro pm r rest hhigh
    have hlow : ¬r.ts < cfg.tsStart := by
      intro hl
      exact absurd (lt_of_le_of_lt hcfg hhigh) (not_lt.mpr (le_of_lt hl))
    rw [runFile, if_neg hlow, if_pos hhigh]
  · intro pm recs
    obtain ⟨hp, he⟩ := runFile_windowed cfg rc hcfg recs pm
    exact ⟨hp, he, fun o => by rw [he]⟩

/-- C4 witness: window `[0, 100]`; a record at `t = -3` is skipped, a record
at `t = 102` latches the flag and stops the file, and a two-record file is
equivalent to its windowed restriction. -/
theorem c4_witness :
    ((0 : ℚ) ≤ 100 + 1) ∧
      ((⟨15, -3, "A", "1.2.3.4", 100, "10.0.0.0/24", "100 200"⟩ : URecord).ts < (0 : ℚ) ∧
        runFile ⟨0, 100, []⟩ "rc0" [("1.2.3.4", [])]
            [⟨15, -3, "A", "1.2.3.4", 100, "10.0.0.0/24", "100 200"⟩] =
          runFile ⟨0, 100, []⟩ "rc0" [("1.2.3.4", [])] []) ∧
      ((100 : ℚ) + 1 < (⟨15, 102, "A", "1.2.3.4", 100, "10.0.0.0/24", "100 200"⟩ : URecord).ts ∧
        runFile ⟨0, 100, []⟩ "rc0" [("1.2.3.4", [])]
            [⟨15, 102, "A", "1.2.3.4", 100, "10.0.0.0/24", "100 200"⟩,
              ⟨15, 50, "A", "1.2.3.4", 100, "10.0.0.0/24", "100 200"⟩] =
          ⟨[("1.2.3.4", [])], true, []⟩) := by
  refine ⟨by norm_num, ⟨by norm_num, ?_⟩, ⟨by norm_num, ?_⟩⟩
  · exact (c4_windowing ⟨0, 100, []⟩ "rc0" (by norm_num)).1 [("1.2.3.4", [])]
      ⟨15, -3, "A", "1.2.3.4", 100, "10.0.0.0/24", "100 200"⟩ [] (by norm_num)
  · exact (c4_windowing ⟨0, 100, []⟩ "rc0" (by norm_num)).2.1 [("1.2.3.4", [])]
      ⟨15, 102, "A", "1.2.3.4", 100, "10.0.0.0/24", "100 200"⟩
      [⟨15, 50, "A", "1.2.3.4", 100, "10.0.0.0/24", "100 200"⟩] (by norm_num)

/-! ## Claim C2 — per-collector termination.

The claim asserts that once `stop_updating[rc]` is true no later record of
`rc` influences state.  The code only latches the flag and `return`s from
the current file; neither `RIBTable.update` nor `_update_rib_from_url` ever
reads the flag, and the driver breaks out of its replay loop only when
every collector's flag is true.  So records of a later update file for a
latched collector are applied normally: `c2_counterexample` exhibits a
collector with `stop_updating = true` whose next update call still mutates
the RIB and notifies observers. -/

/-- C2 (counterexample): with `stop_updating["rc0"] = true`, an in-window
announcement in a later `update` call for `"rc0"` still changes `data` and
emits a notification — contradicting "no subsequent record from rc causes
any change". -/
theorem c2_counterexample :
    mget "rc0" (⟨[("rc0", [("1.2.3.4", [])])], [("rc0", true)], []⟩ : RIBState).stop =
        some true ∧
      (updateOne ⟨0, 100, []⟩ ⟨[("rc0", [("1.2.3.4", [])])], [("rc0", true)], []⟩
            ("rc0", [⟨15, 50, "A", "1.2.3.4", 100, "10.0.0.0/24", "100 200"⟩])).data ≠
        (⟨[("rc0", [("1.2.3.4", [])])], [("rc0", true)], []⟩ : RIBState).data ∧
      (updateOne ⟨0, 100, []⟩ ⟨[("rc0", [("1.2.3.4", [])])], [("rc0", true)], []⟩
            ("rc0", [⟨15, 50, "A", "1.2.3.4", 100, "10.0.0.0/24", "100 200"⟩])).trace ≠
        [] := by
  have hrun : runFile ⟨0, 100, []⟩ "rc0" [("1.2.3.4", [])]
      [⟨15, 50, "A", "1.2.3.4", 100, "10.0.0.0/24", "100 200"⟩] =
      ⟨[("1.2.3.4", [("10.0.0.0/24", [100, 200])])], false,
        [Event.ann true "rc0" "1.2.3.4" "10.0.0.0/24" [100, 200] none]⟩ := by
    rw [runFile, if_neg (by norm_num), if_neg (by norm_num)]
    decide
  refine ⟨by decide, ?_, ?_⟩
  · simp only [updateOne]
    unfold updateOneData
    simp only [show mget "rc0" ([("rc0", [("1.2.3.4", [])])] : RibData) =
      some [("1.2.3.4", [])] from by decide, hrun]
    decide
  · simp only [updateOne]
    unfold updateOneEvents
    simp only [show mget "rc0" ([("rc0", [("1.2.3.4", [])])] : RibData) =
      some [("1.2.3.4", [])] from by decide, hrun]
    decide

/-- C2 (amended): the latch is local to the file that triggers it — when a
record beyond `ts_end + 1 s` is reached, the remaining records of that file
are not processed and `stop_updating[rc]` is set; but the flag is never read
back: the data produced and the notifications emitted by any later `update`
call for `rc` are entirely determined by `data`, identical whatever
`stop_updating` holds (the driver only uses the flags to end the whole
replay when all collectors are latched). -/
theorem c2_termination_amended (cfg : Cfg) (rc : String) :
    (∀ (pm : PeerMap) (r : URecord) (rest : List URecord),
      ¬r.ts < cfg.tsStart → cfg.tsEnd + 1 < r.ts →
        runFile cfg rc pm (r :: rest) = ⟨pm, true, []⟩) ∧
      (∀ (d : RibData) (s1 s2 : List (String × Bool)) (t1 t2 : List Event)
        (recs : List URecord),
        (updateOne cfg ⟨d, s1, t1⟩ (rc, recs)).data =
            (updateOne cfg ⟨d, s2, t2⟩ (rc, recs)).data ∧
          (updateOne cfg ⟨d, s1, t1⟩ (rc, recs)).data = updateOneData cfg rc recs d ∧
          (updateOne cfg ⟨d, s1, t1⟩ (rc, recs)).trace = t1 ++ updateOneEvents cfg rc recs d) := by
  refine ⟨?_, ?_⟩
  · intro pm r rest hlow hhigh
    rw [runFile, if_neg hlow, if_pos hhigh]
  · intro d s1 s2 t1 t2 recs
    exact ⟨rfl, rfl, rfl⟩

/-- C2 witness: the latch at a concrete out-of-window record, and
flag-independence of a concrete later call. -/
theorem c2_witness :
    (¬(⟨15, 102, "A", "1.2.3.4", 100, "10.0.0.0/24", "100 200"⟩ : URecord).ts < (0 : ℚ)) ∧
      ((100 : ℚ) + 1 < 102) ∧
      runFile ⟨0, 100, []⟩ "rc9" []
          [⟨15, 102, "A", "1.2.3.4", 100, "10.0.0.0/24", "100 200"⟩] =
        FileOut.mk [] true [] ∧
      (updateOne ⟨0, 100, []⟩ ⟨[], [("rc9", true)], []⟩ ("rc9", [])).data =
        (updateOne ⟨0, 100, []⟩ ⟨[], [("rc9", false)], []⟩ ("rc9", [])).data := by
  refine ⟨by norm_num, by norm_num, ?_, ?_⟩
  · exact (c2_termination_amended ⟨0, 100, []⟩ "rc9").1 []
      ⟨15, 102, "A", "1.2.3.4", 100, "10.0.0.0/24", "100 200"⟩ [] (by norm_num) (by norm_num)
  · exact ((c2_termination_amended ⟨0, 100, []⟩ "rc9").2 [] [("rc9", true)] [("rc9", false)]
      [] [] []).1

/-! ## Claim C1 — canonicality of stored AS-paths.

`is_valid_path` guarantees length ≥ 2 and first ASN = peer ASN for every
installed path, and this is preserved by every build record and every update
record.  But the groupby collapse happens on string tokens before integer
conversion: two distinct tokens denoting the same ASN (`"5"` and `"05"`)
survive as two adjacent equal ASNs (`c1_counterexample`), so "no two
adjacent ASNs equal" fails; what holds is that no two adjacent string
tokens are equal. -/

/-- The stored-path invariant for one collector's RIB: every stored path has
length ≥ 2 and starts with the ASN `f peer_ip` of the announcing peer. -/
def InvPM (f : String → Int) (pm : PeerMap) : Prop :=
  ∀ pe ∈ pm, ∀ e ∈ pe.2, 2 ≤ e.2.length ∧ e.2.head? = some (f pe.1)

/-- The stored-path invariant over the whole `data` mapping. -/
def InvData (f : String → Int) (d : RibData) : Prop := ∀ rcpm ∈ d, InvPM f rcpm.2

theorem valid_path_props (p : List Int) (asn : Int) (h : is_valid_path p asn = true) :
    2 ≤ p.length ∧ p.head? = some asn := by
  unfold is_valid_path at h
  rw [Bool.and_eq_true, decide_eq_true_eq, decide_eq_true_eq] at h
  exact ⟨by omega, h.2⟩

theorem invPM_mset_inner (f : String → Int) (pm : PeerMap) (peer : String)
    (pfxm2 : PfxMap) (h : InvPM f pm)
    (h2 : ∀ e ∈ pfxm2, 2 ≤ e.2.length ∧ e.2.head? = some (f peer)) :
    InvPM f (mset peer pfxm2 pm) := by
  intro pe hpe
  rcases mem_mset pe peer pfxm2 pm hpe with h1 | h1
  · intro e he
    rw [h1]
    rw [h1] at he
    exact h2 e he
  · exact h pe h1

theorem invPM_doPurge (f : String → Int) (rc peer pfxOf : String) (pm : PeerMap)
    (pfxm : PfxMap) (h : InvPM f pm) (hg : mget peer pm = some pfxm) :
    InvPM f (doPurge rc peer pfxOf pm pfxm).1 := by
  unfold doPurge
  rcases ho : mget pfxOf pfxm with _ | old
  · simp only [ho]
    exact h
  · simp only [ho]
    refine invPM_mset_inner f pm peer _ h ?_
    intro e he
    exact h (peer, pfxm) (mget_mem _ _ _ hg) e (mem_merase _ _ _ he)

theorem invPM_applyRec (cfg : Cfg) (rc : String) (pm : PeerMap) (r : URecord)
    (f : String → Int) (hr : r.peer_asn = f r.peer_ip) (h : InvPM f pm) :
    InvPM f (applyRec cfg rc pm r).1 := by
  unfold applyRec
  by_cases h1 : 0 < cfg.peerFilter.length ∧ r.peer_ip ∉ cfg.peerFilter
  · rw [if_pos h1]
    exact h
  · rw [if_neg h1]
    by_cases h2 : r.nfields = 6 ∧ r.typ = "W"
    · rw [if_pos h2]
      rcases hg : mget r.peer_ip pm with _ | pfxm
      · simp only [hg]
        exact h
      · simp only [hg]
        exact invPM_doPurge f rc r.peer_ip r.pfx pm pfxm h hg
    · rw [if_neg h2]
      by_cases h3 : r.nfields = 15 ∧ r.typ = "A"
      · rw [if_pos h3]
        rcases hg : mget r.peer_ip pm with _ | pfxm
        · simp only [hg]
          exact h
        · simp only [hg]
          rcases hs : sanitizePath r.asPath with _ | newPath
          · exact invPM_doPurge f rc r.peer_ip r.pfx pm pfxm h hg
          · simp only []
            by_cases hv : is_valid_path newPath r.peer_asn
            · rw [if_pos hv]
              refine invPM_mset_inner f pm r.peer_ip _ h ?_
              intro e he
              rcases mem_mset e r.pfx newPath pfxm he with he1 | he1
              · obtain ⟨hl, hh⟩ := valid_path_props newPath r.peer_asn hv
                rw [he1]
                exact ⟨hl, by rw [hh, hr]⟩
              · exact h (r.peer_ip, pfxm) (mget_mem _ _ _ hg) e he1
            · rw [if_neg hv]
              exact invPM_doPurge f rc r.peer_ip r.pfx pm pfxm h hg
      · rw [if_neg h3]
        exact h

theorem invPM_runFile (cfg : Cfg) (rc : String) (f : String → Int) :
    ∀ (recs : List URecord) (pm : PeerMap),
      (∀ r ∈ recs, r.peer_asn = f r.peer_ip) → InvPM f pm →
      InvPM f (runFile cfg rc pm recs).pm := by
  intro recs
  induction recs with
  | nil => intro pm _ h; exact h
  | cons r rest ih =>
    intro pm hrecs h
    rw [runFile]
    by_cases hlow : r.ts < cfg.tsStart
    · rw [if_pos hlow]
      exact ih pm (fun r2 hr2 => hrecs r2 (List.mem_cons_of_mem _ hr2)) h
    · rw [if_neg hlow]
      by_cases hhigh : cfg.tsEnd + 1 < r.ts
      · rw [if_pos hhigh]
        exact h
      · rw [if_neg hhigh]
        exact ih (applyRec cfg rc pm r).1 (fun r2 hr2 => hrecs r2 (List.mem_cons_of_mem _ hr2))
          (invPM_applyRec cfg rc pm r f (hrecs r (List.mem_cons_self _ _)) h)

theorem invPM_buildStep (cfg : Cfg) (rc : String) (acc : PeerMap × List Event)
    (r : BRecord) (f : String → Int) (hr : r.peer_asn = f r.peer_ip)
    (h : InvPM f acc.1) : InvPM f (buildStep cfg rc acc r).1 := by
  unfold buildStep
  by_cases h1 : cfg.peerFilter.length = 0 ∨ r.peer_ip ∈ cfg.peerFilter
  · rw [if_pos h1]
    rcases hs : sanitizePath r.asPath with _ | path
    · exact h
    · simp only []
      by_cases hv : is_valid_path path r.peer_asn
      · rw [if_pos hv]
        refine invPM_mset_inner f acc.1 r.peer_ip _ h ?_
        intro e he
        rcases mem_mset e r.pfx path _ he with he1 | he1
        · obtain ⟨hl, hh⟩ := valid_path_props path r.peer_asn hv
          rw [he1]
          exact ⟨hl, by rw [hh, hr]⟩
        · rcases hg : mget r.peer_ip acc.1 with _ | pfxm
          · rw [hg] at he1
            simp at he1
          · rw [hg] at he1
            exact h (r.peer_ip, pfxm) (mget_mem _ _ _ hg) e he1
      · rw [if_neg hv]
        exact h
  · rw [if_neg h1]
    exact h

theorem foldl_preserve_mem {σ τ : Type} (P : σ → Prop) (f : σ → τ → σ) (Q : τ → Prop) :
    ∀ (l : List τ) (s : σ), P s → (∀ x ∈ l, Q x) →
      (∀ s2 x, P s2 → Q x → P (f s2 x)) → P (l.foldl f s) := by
  intro l
  induction l with
  | nil => intro s hs _ _; exact hs
  | cons x t ih =>
    intro s hs hq hf
    exact ih (f s x) (hf s x hs (hq x (List.mem_cons_self _ _)))
      (fun y hy => hq y (List.mem_cons_of_mem _ hy)) hf

theorem invPM_buildFile (cfg : Cfg) (rc : String) (f : String → Int)
    (recs : List BRecord) (hrecs : ∀ r ∈ recs, r.peer_asn = f r.peer_ip) :
    InvPM f (buildFile cfg rc recs).1 := by
  unfold buildFile
  refine foldl_preserve_mem (fun acc => InvPM f acc.1) (buildStep cfg rc)
    (fun r => r.peer_asn = f r.peer_ip) recs ([], []) ?_ hrecs ?_
  · intro pe hpe
    simp at hpe
  · intro acc r hacc hq
    exact invPM_buildStep cfg rc acc r f hq hacc

theorem invData_buildTable (cfg : Cfg) (f : String → Int) (st : RIBState)
    (m : List (String × List BRecord))
    (hb : ∀ p ∈ m, ∀ r ∈ p.2, r.peer_asn = f r.peer_ip) :
    InvData f (buildTable cfg st m).data := by
  intro rcpm hrcpm
  simp only [buildTable, List.mem_map] at hrcpm
  obtain ⟨p, hp, hpe⟩ := hrcpm
  rw [← hpe]
  exact invPM_buildFile cfg p.1 f p.2 (hb p hp)

theorem invData_updateOne (cfg : Cfg) (f : String → Int) (st : RIBState)
    (call : String × List URecord)
    (hcall : ∀ r ∈ call.2, r.peer_asn = f r.peer_ip)
    (h : InvData f st.data) : InvData f (updateOne cfg st call).data := by
  show InvData f (updateOneData cfg call.1 call.2 st.data)
  unfold updateOneData
  rcases hg : mget call.1 st.data with _ | pm
  · simp only [hg]
    exact h
  · simp only [hg]
    intro rcpm hrcpm
    rcases mem_mset rcpm call.1 _ st.data hrcpm with h1 | h1
    · rw [h1]
      exact invPM_runFile cfg call.1 f call.2 pm hcall (h (call.1, pm) (mget_mem _ _ _ hg))
    · exact h rcpm h1

/-- C1 (amended): after `build` and after every update record — across any
sequence of `update` calls — every AS-path stored in the RIB for any
collector, peer and prefix has length ≥ 2 and its first ASN equals the
announcing peer's ASN (`f` maps each peer ip to its ASN, which every record
of the streams carries consistently).  Moreover every accepted path arises
from a run-collapsed token list in which no two adjacent string tokens are
equal; adjacent equal ASNs written as distinct tokens (such as `"5"`
and `"05"`) are however not collapsed, so adjacent duplicate ASNs can be
stored (`c1_counterexample`). -/
theorem c1_canonicality_amended (cfg : Cfg) (f : String → Int) (st : RIBState)
    (m : List (String × List BRecord)) (calls : List (String × List URecord))
    (hb : ∀ p ∈ m, ∀ r ∈ p.2, r.peer_asn = f r.peer_ip)
    (hu : ∀ c ∈ calls, ∀ r ∈ c.2, r.peer_asn = f r.peer_ip) :
    InvData f (updateCall cfg (buildTable cfg st m) calls).data ∧
      (∀ (rc : String) (pm : PeerMap) (r : URecord), InvPM f pm →
        r.peer_asn = f r.peer_ip → InvPM f (applyRec cfg rc pm r).1) ∧
      (∀ (field : String) (p : List Int), sanitizePath field = some p →
        ∃ keys : List String, keys.Chain' (· ≠ ·) ∧ mapIntList keys = some p) := by
  refine ⟨?_, ?_, ?_⟩
  · unfold updateCall
    refine foldl_preserve_mem (fun st2 : RIBState => InvData f st2.data) (updateOne cfg)
      (fun c => ∀ r ∈ c.2, r.peer_asn = f r.peer_ip) calls (buildTable cfg st m)
      (invData_buildTable cfg f st m hb) hu ?_
    intro st2 c hst2 hc
    exact invData_updateOne cfg f st2 c hc hst2
  · intro rc pm r hpm hr
    exact invPM_applyRec cfg rc pm r f hr hpm
  · intro field p hs
    exact ⟨(pySplit field).destutter (· ≠ ·), List.destutter_is_chain' _ _, hs⟩

/-- C1 (counterexample): the RIB record with AS-path field `"100 5 05"`
(peer ASN 100) is accepted by the sanitizer and stored as `[100, 5, 5]` —
an AS-path with two adjacent equal ASNs, because `"5"` and `"05"` are
distinct string tokens the groupby collapse keeps apart. -/
theorem c1_counterexample :
    (buildStep ⟨0, 100, []⟩ "rc0" ([], []) ⟨"1.2.3.4", 100, "10.0.0.0/24", "100 5 05"⟩).1 =
        [("1.2.3.4", [("10.0.0.0/24", [100, 5, 5])])] ∧
      ¬List.Chain' (· ≠ ·) [(100 : Int), 5, 5] := by
  refine ⟨by decide, fun hch => ?_⟩
  rw [List.chain'_cons, List.chain'_cons] at hch
  exact hch.2.1 rfl

/-- C1 witness: a one-collector build followed by a one-record update call. -/
theorem c1_witness :
    (∀ p ∈ [("rc0", [(⟨"1.2.3.4", 100, "10.0.0.0/24", "100 200"⟩ : BRecord)])],
      ∀ r ∈ p.2, BRecord.peer_asn r = (fun _ => (100 : Int)) r.peer_ip) ∧
      (∀ c ∈ [("rc0", [(⟨15, 50, "A", "1.2.3.4", 100, "10.0.0.0/24", "100 300"⟩ : URecord)])],
        ∀ r ∈ c.2, URecord.peer_asn r = (fun _ => (100 : Int)) r.peer_ip) ∧
      (InvData (fun _ => (100 : Int))
          (updateCall ⟨0, 100, []⟩
            (buildTable ⟨0, 100, []⟩ ⟨[], [], []⟩
              [("rc0", [⟨"1.2.3.4", 100, "10.0.0.0/24", "100 200"⟩])])
            [("rc0", [⟨15, 50, "A", "1.2.3.4", 100, "10.0.0.0/24", "100 300"⟩])]).data ∧
        (∀ (rc : String) (pm : PeerMap) (r : URecord), InvPM (fun _ => (100 : Int)) pm →
          r.peer_asn = (fun _ => (100 : Int)) r.peer_ip →
          InvPM (fun _ => (100 : Int)) (applyRec ⟨0, 100, []⟩ rc pm r).1) ∧
        (∀ (field : String) (p : List Int), sanitizePath field = some p →
          ∃ keys : List String, keys.Chain' (· ≠ ·) ∧ mapIntList keys = some p)) :=
  ⟨by decide, by decide,
    c1_canonicality_amended ⟨0, 100, []⟩ (fun _ => (100 : Int)) ⟨[], [], []⟩
      [("rc0", [⟨"1.2.3.4", 100, "10.0.0.0/24", "100 200"⟩])]
      [("rc0", [⟨15, 50, "A", "1.2.3.4", 100, "10.0.0.0/24", "100 300"⟩])]
      (by decide) (by decide)⟩

/-! ## Claim C3 — `compare` is diagnostic, but not pure and not total.

`RIBTable.compare` iterates `self.data`; for each peer of each collector it
evaluates `other.data[rc][peer_ip]`.  `other.data[rc]` is a plain dict
access: a collector of `self` missing from `other` raises an uncaught
`KeyError` (the `try` only wraps `dict_diff`).  `other.data[rc]` is a
`defaultdict(dict)`, so probing a peer missing from the ground truth
silently inserts an empty entry into `other`'s data.  And
`ASGraphObserver.compare` starts by removing `self`'s isolated graph nodes.
The diff computation itself (`dict_diff`, `compare_weighted_graphs`) is
read-only. -/

theorem mget_append {α β : Type} [DecidableEq α] (k : α) (m1 m2 : List (α × β)) :
    mget k (m1 ++ m2) =
      match mget k m1 with
      | some v => some v
      | none => mget k m2 := by
  induction m1 with
  | nil => simp [mget]
  | cons hd t ih =>
    obtain ⟨a, b⟩ := hd
    show (if a = k then some b else mget k (t ++ m2)) = _
    by_cases hak : a = k
    · rw [if_pos hak]
      show _ = (match (if a = k then some b else mget k t) with
        | some v => some v
        | none => mget k m2)
      rw [if_pos hak]
    · rw [if_neg hak, ih]
      show _ = (match (if a = k then some b else mget k t) with
        | some v => some v
        | none => mget k m2)
      rw [if_neg hak]

/-- The `defaultdict` probe `other.data[rc][peer_ip]` performed by `compare`
for every peer of `self`: reading a missing key inserts an empty dict. -/
def probePeer (pmo : PeerMap) (peer : String) : PeerMap :=
  match mget peer pmo with
  | some _ => pmo
  | none => pmo ++ [(peer, [])]

/-- The inner loop of `compare` over the peers of one collector of `self`
(`dict_diff` and the logging are read-only). -/
def compareRC (pmo : PeerMap) (peers : List String) : PeerMap :=
  peers.foldl probePeer pmo

instance {e2 a2 : Type} [DecidableEq e2] [DecidableEq a2] : DecidableEq (Except e2 a2) := fun x y =>
  match x, y with
  | .ok a, .ok b => decidable_of_iff (a = b) (by simp)
  | .error a, .error b => decidable_of_iff (a = b) (by simp)
  | .ok _, .error _ => isFalse (fun hcon => Except.noConfusion hcon)
  | .error _, .ok _ => isFalse (fun hcon => Except.noConfusion hcon)

/-- The RIB-comparison loop of `RIBTable.compare`.  Returns the (possibly
mutated) ground-truth data, or an error when a collector of `self` with a
non-empty peer map is missing from `other` (`KeyError` at
`other.data[rc]`). -/
def ribCompare : RibData → RibData → Except Unit RibData
  | [], otherD => .ok otherD
  | (rc, pmS) :: rest, otherD =>
    if pmS.isEmpty then ribCompare rest otherD
    else
      match mget rc otherD with
      | none => .error ()
      | some pmo => ribCompare rest (mset rc (compareRC pmo (pmS.map Prod.fst)) otherD)

/-- Does the ASN appear as an endpoint of some edge? -/
def incident (n : Int) (es : List ((Int × Int) × Int)) : Bool :=
  es.any (fun e => decide (e.1.1 = n) || decide (e.1.2 = n))

/-- `self.graph_ipv4.remove_nodes_from(list(nx.isolates(...)))` performed at
the top of `ASGraphObserver.compare`: drop every degree-zero node. -/
def removeIsolates (g : NGraph) : NGraph :=
  { g with nodes := g.nodes.filter (fun n => incident n g.edges) }

/-- `ASGraphObserver.compare`: mutates `self`'s graph by removing isolates,
leaves `other` untouched (the comparison itself only reads both). -/
def graphObsCompare (g other : NGraph) : NGraph × NGraph :=
  (removeIsolates g, other)

/-- `(rc, peer, prefix) → stored path` lookup in a `data` mapping. -/
def getPath (d : RibData) (rc peer pfxq : String) : Option (List Int) :=
  match mget rc d with
  | none => none
  | some pm =>
    match mget peer pm with
    | none => none
    | some pfxm => mget pfxq pfxm

theorem mget_probePeer (pmo : PeerMap) (p peer : String) :
    mget peer (probePeer pmo p) = mget peer pmo ∨
      (mget peer pmo = none ∧ mget peer (probePeer pmo p) = some []) := by
  unfold probePeer
  rcases hg : mget p pmo with _ | v
  · show mget peer (pmo ++ [(p, [])]) = mget peer pmo ∨
      (mget peer pmo = none ∧ mget peer (pmo ++ [(p, [])]) = some [])
    rw [mget_append]
    rcases hp : mget peer pmo with _ | w
    · by_cases hpk : p = peer
      · right
        refine ⟨rfl, ?_⟩
        show (if p = peer then some [] else none) = some []
        rw [if_pos hpk]
      · left
        show (if p = peer then some [] else none) = none
        rw [if_neg hpk]
    · left
      rfl
  · left
    rfl

theorem mget_compareRC (l : List String) :
    ∀ (pmo : PeerMap) (peer : String),
      mget peer (compareRC pmo l) = mget peer pmo ∨
        (mget peer pmo = none ∧ mget peer (compareRC pmo l) = some []) := by
  induction l with
  | nil => intro pmo peer; left; rfl
  | cons p t ih =>
    intro pmo peer
    show mget peer (compareRC (probePeer pmo p) t) = mget peer pmo ∨
      (mget peer pmo = none ∧ mget peer (compareRC (probePeer pmo p) t) = some [])
    rcases ih (probePeer pmo p) peer with hA | ⟨hB1, hB2⟩
    · rcases mget_probePeer pmo p peer with hC | ⟨hD1, hD2⟩
      · left
        exact hA.trans hC
      · right
        exact ⟨hD1, hA.trans hD2⟩
    · rcases mget_probePeer pmo p peer with hC | ⟨hD1, hD2⟩
      · right
        exact ⟨hC.symm.trans hB1, hB2⟩
      · right
        exact ⟨hD1, hB2⟩

theorem getPath_mset_compareRC (otherD : RibData) (rc : String) (pmo : PeerMap)
    (l : List String) (hg : mget rc otherD = some pmo) :
    ∀ rc2 peer pfxq,
      getPath (mset rc (compareRC pmo l) otherD) rc2 peer pfxq =
        getPath otherD rc2 peer pfxq := by
  intro rc2 peer pfxq
  unfold getPath
  by_cases hrc : rc = rc2
  · subst hrc
    rw [mget_mset_self, hg]
    show (match mget peer (compareRC pmo l) with
          | none => none
          | some pfxm => mget pfxq pfxm) =
        (match mget peer pmo with
          | none => none
          | some pfxm => mget pfxq pfxm)
    rcases mget_compareRC l pmo peer with h1 | ⟨h1, h2⟩
    · rw [h1]
    · rw [h1, h2]
      rfl
  · rw [mget_mset_ne _ _ _ _ hrc]

theorem ribCompare_ok :
    ∀ (selfD otherD : RibData),
      (∀ pr ∈ selfD, pr.2 ≠ [] → (mget pr.1 otherD).isSome) →
      ∃ otherD2, ribCompare selfD otherD = .ok otherD2 ∧
        ∀ rc peer pfxq, getPath otherD2 rc peer pfxq = getPath otherD rc peer pfxq := by
  intro selfD
  induction selfD with
  | nil =>
    intro otherD _
    exact ⟨otherD, rfl, fun _ _ _ => rfl⟩
  | cons hd rest ih =>
    obtain ⟨rc, pmS⟩ := hd
    intro otherD hall
    show ∃ otherD2, (if pmS.isEmpty then ribCompare rest otherD
      else match mget rc otherD with
        | none => .error ()
        | some pmo => ribCompare rest (mset rc (compareRC pmo (pmS.map Prod.fst)) otherD)) =
        .ok otherD2 ∧ _
    by_cases hemp : pmS.isEmpty
    · rw [if_pos hemp]
      exact ih otherD (fun pr hm => hall pr (List.mem_cons_of_mem _ hm))
    · rw [if_neg hemp]
      have hne : pmS ≠ [] := by
        intro hc
        rw [hc] at hemp
        exact hemp rfl
      have hsome := hall (rc, pmS) (List.mem_cons_self _ _) hne
      rcases hg : mget rc otherD with _ | pmo
      · rw [hg] at hsome
        simp at hsome
      · simp only [hg]
        have hall2 : ∀ pr ∈ rest, pr.2 ≠ [] →
            (mget pr.1 (mset rc (compareRC pmo (pmS.map Prod.fst)) otherD)).isSome := by
          intro pr hm hne2
          by_cases hrc : rc = pr.1
          · rw [← hrc, mget_mset_self]
            rfl
          · rw [mget_mset_ne _ _ _ _ hrc]
            exact hall pr (List.mem_cons_of_mem _ hm) hne2
        obtain ⟨otherD2, hok, hpres⟩ :=
          ih (mset rc (compareRC pmo (pmS.map Prod.fst)) otherD) hall2
        refine ⟨otherD2, hok, ?_⟩
        intro rc2 peer pfxq
        rw [hpres rc2 peer pfxq, getPath_mset_compareRC otherD rc pmo _ hg]

/-- C3 (amended): the RIB half of `compare` never touches `self` and never
changes any stored prefix-to-path mapping of `other`, and it succeeds
whenever every collector of `self` with a non-empty peer map is present in
`other`; but it is not pure and not total as claimed — probing a peer of
`self` absent from `other` inserts an empty peer entry into `other`'s data,
a collector missing from `other` raises `KeyError`, and the graph
observer's `compare` removes `self`'s isolated nodes (its edges and the
whole of `other` are untouched). -/
theorem c3_compare_amended (selfD otherD : RibData) (g h : NGraph)
    (hall : ∀ pr ∈ selfD, pr.2 ≠ [] → (mget pr.1 otherD).isSome) :
    (∃ otherD2, ribCompare selfD otherD = .ok otherD2 ∧
      ∀ rc peer pfxq, getPath otherD2 rc peer pfxq = getPath otherD rc peer pfxq) ∧
      (graphObsCompare g h).2 = h ∧
      (graphObsCompare g h).1.edges = g.edges ∧
      (graphObsCompare g h).1.nodes = g.nodes.filter (fun n => incident n g.edges) :=
  ⟨ribCompare_ok selfD otherD hall, rfl, rfl, rfl⟩

/-- C3 (counterexample): `compare` is not side-effect free and can fail.
With ground truth `other` missing peer `"p1"`, the probe inserts an empty
entry into `other`'s data (so `other` is mutated); with the collector
missing entirely, the comparison raises (`KeyError`); and the graph
observer's compare drops `self`'s isolated node. -/
theorem c3_counterexample :
    ribCompare [("rc0", [("p1", [("10.0.0.0/24", [100, 200])])])] [("rc0", [])] =
        .ok [("rc0", [("p1", [])])] ∧
      ([("rc0", [("p1", [])])] : RibData) ≠ [("rc0", [])] ∧
      ribCompare [("rc0", [("p1", [("10.0.0.0/24", [100, 200])])])] [] = .error () ∧
      (graphObsCompare ⟨[1, 2, 3], [((1, 2), 1)]⟩ ⟨[], []⟩).1 ≠ ⟨[1, 2, 3], [((1, 2), 1)]⟩ := by
  refine ⟨by decide, by decide, by decide, by decide⟩

/-- C3 witness: a present peer and a missing peer against a concrete ground
truth. -/
theorem c3_witness :
    (∀ pr ∈ ([("rc0", [("p1", [("10.0.0.0/24", [100, 200])])])] : RibData),
        pr.2 ≠ [] → (mget pr.1 ([("rc0", [("p2", [("10.0.0.0/24", [100, 300])])])] : RibData)).isSome) ∧
      ((∃ otherD2,
          ribCompare [("rc0", [("p1", [("10.0.0.0/24", [100, 200])])])]
              [("rc0", [("p2", [("10.0.0.0/24", [100, 300])])])] = .ok otherD2 ∧
            ∀ rc peer pfxq, getPath otherD2 rc peer pfxq =
              getPath [("rc0", [("p2", [("10.0.0.0/24", [100, 300])])])] rc peer pfxq) ∧
        (graphObsCompare ⟨[1, 2, 3], [((1, 2), 1)]⟩ ⟨[], []⟩).2 = ⟨[], []⟩ ∧
        (graphObsCompare ⟨[1, 2, 3], [((1, 2), 1)]⟩ ⟨[], []⟩).1.edges =
          (⟨[1, 2, 3], [((1, 2), 1)]⟩ : NGraph).edges ∧
        (graphObsCompare ⟨[1, 2, 3], [((1, 2), 1)]⟩ ⟨[], []⟩).1.nodes =
          (⟨[1, 2, 3], [((1, 2), 1)]⟩ : NGraph).nodes.filter
            (fun n => incident n (⟨[1, 2, 3], [((1, 2), 1)]⟩ : NGraph).edges)) :=
  ⟨by decide,
    c3_compare_amended [("rc0", [("p1", [("10.0.0.0/24", [100, 200])])])]
      [("rc0", [("p2", [("10.0.0.0/24", [100, 300])])])]
      ⟨[1, 2, 3], [((1, 2), 1)]⟩ ⟨[], []⟩ (by decide)⟩

end Quickrib
